import Mathlib

/-!
Verification of the OpenRig naming-convention engine
(`src/openrig/naming/manager.py`, `src/openrig/schemas.py`).

The Python code synthesizes regular-expression strings and matches names
with Python's `re` module.  We model the constructed patterns as an
explicit AST (`Rx`) covering exactly the constructs the code emits
(literals, character classes, `.`:, alternation, concatenation, greedy
`?`, `*`, `+`, named capture groups, and the negative lookahead used for
multi-character separators), and give them Python-`re` semantics with a
backtracking matcher that enumerates parses in the engine's preference
order (leftmost alternative first, greedy repetition first).  `$` is
modelled as strict end-of-string.  `re.fullmatch` / an anchored
`re.match` then takes the first parse consuming the whole input.

Rule patterns (`RegexRule.pattern`) are modelled directly as anchor-free
`Rx` ASTs: in the source, `validate` does a full match of the pattern
and `to_regex_pattern` strips a leading `^` / trailing `$`, so an
anchor-free AST with full-match semantics is the faithful image of both.
-/

namespace OpenRig

/-- Python's ASCII whitespace set for `\s` and `str.strip()`:
`\t \n \v \f \r` (x09..x0D) and the space character. -/
def wsRanges : List (Char × Char) := [('\x09', '\x0d'), (' ', ' ')]

/-- Character-class membership over a list of inclusive ranges. -/
def charInRanges (c : Char) (rs : List (Char × Char)) : Bool :=
  rs.any (fun p => p.1 ≤ c && c ≤ p.2)

/-- `c` counts as whitespace for Python's `str.strip()`. -/
def isPySpace (c : Char) : Bool := charInRanges c wsRanges

/-- Python `str.strip()`: drop whitespace from both ends. -/
def pyStrip (v : String) : String :=
  String.mk (((v.data.dropWhile isPySpace).reverse.dropWhile isPySpace).reverse)

/-- Python `sep.join(parts)` on character lists. -/
def joinChars (sep : List Char) : List (List Char) → List Char
  | [] => []
  | [v] => v
  | v :: vs => v ++ sep ++ joinChars sep vs

/-- Worker for Python `str.split(sep)` with a non-empty separator: cut
at each occurrence of `sep`.  `fuel` bounds the recursion; any
`fuel ≥ s.length` is enough since every step consumes a character. -/
def splitCharsF (sep : List Char) : Nat → List Char → List (List Char)
  | _, [] => [[]]
  | 0, s => [s]
  | fuel + 1, c :: rest =>
    if sep ≠ [] ∧ sep.isPrefixOf (c :: rest) then
      [] :: splitCharsF sep fuel ((c :: rest).drop sep.length)
    else
      match splitCharsF sep fuel rest with
      | [] => [[c]]
      | p :: ps => (c :: p) :: ps

/-- Python `s.split(sep)` for a non-empty `sep`. -/
def pySplit (sep s : String) : List String :=
  (splitCharsF sep.data s.data.length s.data).map String.mk

/-- Python's substring test `pat in s` on character lists. -/
def isSubstring (pat : List Char) : List Char → Bool
  | [] => pat.isPrefixOf []
  | c :: rest => pat.isPrefixOf (c :: rest) || isSubstring pat rest

/-- Captures accumulated by named groups during a regex parse
(Python's `match.groupdict()`, restricted to the groups that matched). -/
abbrev Caps := List (String × List Char)

/-- AST of the regex fragments the Manager constructs. -/
inductive Rx where
  /-- matches the empty string -/
  | eps : Rx
  /-- a literal (`re.escape`d) character sequence -/
  | str (cs : List Char) : Rx
  /-- `.` -/
  | any : Rx
  /-- character class `[...]` / `[^...]` over inclusive ranges -/
  | cls (neg : Bool) (ranges : List (Char × Char)) : Rx
  /-- alternation `a|b` (left branch preferred) -/
  | alt (a b : Rx) : Rx
  /-- concatenation -/
  | seq (a b : Rx) : Rx
  /-- greedy `r?` -/
  | opt (r : Rx) : Rx
  /-- greedy `r*` -/
  | star (r : Rx) : Rx
  /-- named capture group `(?P<name>r)` -/
  | group (name : String) (r : Rx) : Rx
  /-- negative lookahead `(?!r)` -/
  | nla (r : Rx) : Rx
deriving DecidableEq, Repr

/-- greedy `r+`, which Python treats as `r r*`. -/
def Rx.plus (r : Rx) : Rx := .seq r (.star r)

/-- Greedy Kleene iteration of a matcher `next`, unrolled at most `fuel`
times; only iterations that consume at least one character are taken
(empty iterations are redundant for Python's matching semantics).
Results are `(consumed, captures)` pairs in preference order, more
iterations first, the empty match last. -/
def runStar (next : List Char → List (Nat × Caps)) : Nat → List Char → List (Nat × Caps)
  | 0, _ => [(0, [])]
  | fuel + 1, s =>
    ((next s).flatMap fun p =>
      if 0 < p.1 then
        (runStar next fuel (s.drop p.1)).map fun q => (p.1 + q.1, p.2 ++ q.2)
      else []) ++ [(0, [])]

/-- The backtracking matcher: all parses of `r` against a prefix of `s`,
as `(consumed, captures)` pairs in Python `re`'s preference order.
A star can iterate at most `s.length` times (each iteration consumes),
so `s.length` fuel is always enough. -/
def runRx : Rx → List Char → List (Nat × Caps)
  | .eps, _ => [(0, [])]
  | .str cs, s => if cs.isPrefixOf s then [(cs.length, [])] else []
  | .any, s => match s with | [] => [] | _ :: _ => [(1, [])]
  | .cls neg rs, s =>
    match s with
    | [] => []
    | c :: _ => if charInRanges c rs != neg then [(1, [])] else []
  | .alt a b, s => runRx a s ++ runRx b s
  | .seq a b, s =>
    (runRx a s).flatMap fun p =>
      (runRx b (s.drop p.1)).map fun q => (p.1 + q.1, p.2 ++ q.2)
  | .opt r, s => runRx r s ++ [(0, [])]
  | .star r, s => runStar (fun t => runRx r t) s.length s
  | .group n r, s => (runRx r s).map fun p => (p.1, p.2 ++ [(n, s.take p.1)])
  | .nla r, s => if runRx r s = [] then [(0, [])] else []

/-- `re.fullmatch` (or `re.match` with a `^...$`-anchored pattern) as a
Boolean: some parse consumes the entire input. -/
def reFullMatch (r : Rx) (s : List Char) : Bool :=
  (runRx r s).any fun p => p.1 == s.length

/-- Captures of the parse Python's engine reports for an anchored
pattern: the first full parse in preference order. -/
def fullParseCaps (r : Rx) (s : List Char) : Option Caps :=
  (((runRx r s).filter fun p => p.1 == s.length).head?).map Prod.snd

/-- `TokenValue = Union[str, Enum]` (`schemas.py`): raw input for a
token.  An `Enum` member is carried as its `.value`, already rendered
as the string `str(value.value)` produces. -/
inductive TokenValue where
  | s (v : String) : TokenValue
  | en (v : String) : TokenValue
deriving DecidableEq, Repr

/-- `str(value.value) if isinstance(value, Enum) else value`. -/
def unwrapTV : TokenValue → String
  | .s v => v
  | .en v => v

/-- The exceptions the modelled code can raise, with their payloads
(the data interpolated into the Python messages). -/
inductive Err where
  /-- `NamingValidationError` from `build_name`: unknown kwargs keys -/
  | unknownTokens (unknown valid : List String) : Err
  /-- `NamingValidationError` from `build_name`: value fails its rule -/
  | invalidValue (value token sep : String) : Err
  /-- `NamingValidationError` from `_validate_global_rules`: too long -/
  | tooLong (name : String) (limit got : Nat) : Err
  /-- `NamingValidationError` from `_validate_global_rules`: forbidden pattern -/
  | forbidden (name pat : String) : Err
  /-- `NamingValidationError` from `update_name`: unparseable name -/
  | cannotParse (name : String) (tokens : List String) (first : String) : Err
  /-- `NamingValidationError` from `get_token_value`: unknown token -/
  | unknownToken (token : String) (valid : List String) : Err
  /-- `NamingConfigError` from `Manager.__init__`: empty separator -/
  | emptySeparator : Err
  /-- Python builtin `TypeError` from `CallableRule.validate` -/
  | typeError (ruleName : String) : Err
  /-- Python builtin `IndexError` (`self.tokens[0]` on no tokens) -/
  | indexError : Err
deriving DecidableEq, Repr

/-- The Python exception class of each modelled exception. -/
inductive ErrClass where
  | namingValidationError
  | namingConfigError
  | typeError
  | indexError
deriving DecidableEq, Repr

/-- Which Python exception class each `Err` belongs to. -/
def errClass : Err → ErrClass
  | .unknownTokens .. | .invalidValue .. | .tooLong .. | .forbidden ..
  | .cannotParse .. | .unknownToken .. => .namingValidationError
  | .emptySeparator => .namingConfigError
  | .typeError _ => .typeError
  | .indexError => .indexError

/-- The three concrete rule types of `schemas.py`.  `CallableRule.func`
is `Option (String → Bool)`: `none` models a stored reference that is
not invocable. -/
inductive ConcreteRule where
  | regexRule (pattern : Rx) : ConcreteRule
  | listRule (allowed : List String) : ConcreteRule
  | callableRule (func : Option (String → Bool)) (name : String) : ConcreteRule

/-- Stable insertion into a list sorted by length, descending. -/
def insertLenDesc (x : String) : List String → List String
  | [] => [x]
  | y :: ys => if y.length < x.length then x :: y :: ys else y :: insertLenDesc x ys

/-- `sorted(allowed, key=len, reverse=True)`: longest first, order of
equal lengths immaterial (equal-length alternatives are disjoint). -/
def sortLenDesc (l : List String) : List String := l.foldr insertLenDesc []

/-- `CallableRule.to_regex_pattern` / empty-`ListRule` fallback:
the permissive catch-all `[^\s]+`. -/
def wsCatchAll : Rx := Rx.plus (.cls true wsRanges)

/-- `ConcreteRule.validate`: full regex match / set membership /
invocation of the wrapped callable (raising `TypeError` when the stored
reference is not callable). -/
def ConcreteRule.validate : ConcreteRule → String → Except Err Bool
  | .regexRule p, v => .ok (reFullMatch p v.data)
  | .listRule allowed, v => .ok (allowed.contains v)
  | .callableRule none nm, _ => .error (.typeError nm)
  | .callableRule (some f) _, v => .ok (f v)

/-- `ConcreteRule.to_regex_pattern`: the raw pattern (anchor stripping
is built into the AST modelling), a longest-first alternation of the
escaped non-empty allowed values, or the `[^\s]+` catch-all. -/
def ConcreteRule.toRegexPattern : ConcreteRule → Rx
  | .regexRule p => p
  | .listRule allowed =>
    match (sortLenDesc allowed).filter (fun o => o ≠ "") with
    | [] => wsCatchAll
    | e :: es => es.foldl (fun acc o => .alt acc (.str o.data)) (.str e.data)
  | .callableRule _ _ => wsCatchAll

/-- `RuleConfig` (`schemas.py`): raw deserialized rule configuration;
carried inside `GlobalRules` but never read by the `Manager`. -/
structure RuleConfig where
  type : String
  value : Option (String ⊕ List String) := none
  sources : Option (List String) := none

/-- `GlobalRules` (`schemas.py`). -/
structure GlobalRules where
  maxLength : Nat
  forbiddenPatterns : List String := []
  separatorRule : Option RuleConfig := none

/-- The `Manager`'s state.  Python dicts are modelled as association
lists (first binding wins on lookup, in-place replacement on update).
`regexCache` is the `_regex_cache` keyed by
`(capture_groups, full_match, strict)`; a cached entry is
`(full_match, body)` standing for the pattern string
(`"^body$"` when anchored). -/
structure Manager where
  tokens : List String
  separator : String
  rules : List (String × ConcreteRule)
  normalizers : List (String × (String → String))
  globalRules : GlobalRules
  regexCache : List ((Bool × Bool × Bool) × (Bool × Rx)) := []

/-- Python `dict.__setitem__`: replace the binding if the key is
present, else append it. -/
def dictSet {α : Type} : List (String × α) → String → α → List (String × α)
  | [], k, v => [(k, v)]
  | (k0, v0) :: rest, k, v =>
    if k0 = k then (k0, v) :: rest else (k0, v0) :: dictSet rest k v

/-- The catch-all fragment for a token with no rule
(`get_matching_regex`, step 1): `.+` when there is exactly one token,
a lookahead-guarded repetition for a multi-character separator, and the
negated class `[^sep]+` otherwise.  (The source interpolates
`re.escape(sep)` into a character class; an empty separator is ruled
out by `__init__`.) -/
def catchAllFor (M : Manager) : Rx :=
  if M.tokens.length == 1 then Rx.plus .any
  else if 1 < M.separator.length then
    Rx.plus (.seq (.nla (.str M.separator.data)) .any)
  else
    match M.separator.data with
    | [c] => Rx.plus (.cls true [(c, c)])
    | _ => Rx.plus .any

/-- The raw per-token fragment: the token's rule rendered as a regex
fragment, or the catch-all. -/
def rawPattern (M : Manager) (t : String) : Rx :=
  match M.rules.lookup t with
  | some r => r.toRegexPattern
  | none => catchAllFor M

/-- Step 2 of `get_matching_regex`: wrap the fragment in a named capture
group when `capture_groups`, else in a non-capturing group (which is the
identity semantically). -/
def tokenPattern (M : Manager) (captureGroups : Bool) (t : String) : Rx :=
  if captureGroups then .group t (rawPattern M t) else rawPattern M t

/-- `sep.join(token_patterns)`: the strict body, all tokens mandatory. -/
def strictBody (sep : List Char) : List Rx → Rx
  | [] => .eps
  | [g] => g
  | g :: gs => .seq g (.seq (.str sep) (strictBody sep gs))

/-- The right-to-left optional suffix of the lenient body: innermost
`(?:sep G_n)?`, each preceding token wrapping `(?:sep G_i <suffix>)?`. -/
def buildSuffix (sep : List Char) : List Rx → Rx
  | [] => .eps
  | [g] => .opt (.seq (.str sep) g)
  | g :: gs => .opt (.seq (.str sep) (.seq g (buildSuffix sep gs)))

/-- Step 3 of `get_matching_regex`, non-strict: the first token's group
mandatory, the rest optional right-to-left. -/
def lenientBody (sep : List Char) : List Rx → Rx
  | [] => .eps
  | [g] => g
  | g :: gs => .seq g (buildSuffix sep gs)

/-- The pattern `get_matching_regex` computes on a cache miss, as
`(full_match, body)`: `"^$"` (resp. `""`) for zero tokens, else the
strict or lenient assembly, anchored iff `full_match`. -/
def computeMatchingRegex (M : Manager) (fl : Bool × Bool × Bool) : Bool × Rx :=
  match fl with
  | (captureGroups, fullMatch, strict) =>
    if M.tokens = [] then (fullMatch, .eps)
    else
      let pats := M.tokens.map (tokenPattern M captureGroups)
      let body := if strict then strictBody M.separator.data pats
                  else lenientBody M.separator.data pats
      (fullMatch, body)

/-- `get_matching_regex` with its cache: serve a cached pattern when the
flag tuple is present, else compute and cache. -/
def getMatchingRegex (M : Manager) (fl : Bool × Bool × Bool) :
    (Bool × Rx) × Manager :=
  match M.regexCache.lookup fl with
  | some r => (r, M)
  | none =>
    let r := computeMatchingRegex M fl
    (r, { M with regexCache := M.regexCache ++ [(fl, r)] })

/-- `add_rule`: clear the regex cache, then set the token's rule. -/
def addRule (M : Manager) (token : String) (rule : ConcreteRule) : Manager :=
  { M with regexCache := [], rules := dictSet M.rules token rule }

/-- `remove_rule`: clear the regex cache, then drop the token's rule. -/
def removeRule (M : Manager) (token : String) : Manager :=
  { M with regexCache := [], rules := M.rules.filter (fun p => p.1 ≠ token) }

/-- A sequence of `get_matching_regex` calls on one instance, returning
the served patterns and the final state. -/
def runGets (M : Manager) : List (Bool × Bool × Bool) → List (Bool × Rx) × Manager
  | [] => ([], M)
  | f :: fs =>
    ((getMatchingRegex M f).1 :: (runGets (getMatchingRegex M f).2 fs).1,
     (runGets (getMatchingRegex M f).2 fs).2)

/-- `get_data`: initialize every token to `""`, match the capturing
lenient anchored regex, and overwrite with the non-`None` entries of
`groupdict()`.  (The regex synthesis is the cache-miss computation; the
cache, when consistent, serves the same pattern.) -/
def getData (M : Manager) (name : String) : List (String × String) :=
  let init := M.tokens.map (fun t => (t, ""))
  match fullParseCaps (computeMatchingRegex M (true, true, false)).2 name.data with
  | none => init
  | some caps => caps.foldl (fun d p => dictSet d p.1 (String.mk p.2)) init

/-- `_normalize_token_value`: unwrap an `Enum`, return `""` for empty
input, else apply the registered normalizer (if any) and strip. -/
def normalizeTokenValue (M : Manager) (token : String) (value : TokenValue) : String :=
  let raw := unwrapTV value
  if raw = "" then ""
  else
    let raw := match M.normalizers.lookup token with
      | some f => f raw
      | none => raw
    pyStrip raw

/-- `is_valid_token`: `False` when the value contains the separator,
else delegate to the token's rule (`True` with no rule).  `Except`
because a `CallableRule` holding a non-callable raises. -/
def isValidToken (M : Manager) (token value : String) : Except Err Bool :=
  if isSubstring M.separator.data value.data then .ok false
  else
    match M.rules.lookup token with
    | none => .ok true
    | some r => r.validate value

/-- The short-circuiting `all(is_valid_token(t, v) for t, v in
data.items() if v)` of `is_valid`'s second pass. -/
def allValidTokens (M : Manager) : List (String × String) → Except Err Bool
  | [] => .ok true
  | (t, v) :: rest =>
    if v = "" then allValidTokens M rest
    else do
      let b ← isValidToken M t v
      if b then allValidTokens M rest else .ok false

/-- `is_valid`: `False` for empty input; first pass the strict anchored
regex, second pass `is_valid_token` over the extracted data, any
exception in the second pass converted to `False`. -/
def isValid (M : Manager) (name : String) : Bool :=
  if name = "" then false
  else if !reFullMatch (computeMatchingRegex M (false, true, true)).2 name.data then
    false
  else
    match allValidTokens M (getData M name) with
    | .ok b => b
    | .error _ => false

/-- The distinct diagnostic messages `get_errors` produces, each
constructor carrying the data its Python message interpolates. -/
inductive ErrMsg where
  | emptyName
  | tooManyParts (expected got : Nat)
  | invalidPart (part token : String)
  | patternMismatch
deriving DecidableEq, Repr

/-- The positional pass of `get_errors`: one message per part (paired
with its positional token) failing `is_valid_token`. -/
def positionalErrors (M : Manager) : List (String × String) → Except Err (List ErrMsg)
  | [] => .ok []
  | (t, p) :: rest => do
    let b ← isValidToken M t p
    let tail ← positionalErrors M rest
    .ok (if b then tail else .invalidPart p t :: tail)

/-- `get_errors`: the empty-name message alone, else the too-many-parts
finding, the positional findings, and — only when nothing was found and
`is_valid` still fails — the generic pattern-mismatch message. -/
def getErrors (M : Manager) (name : String) : Except Err (List ErrMsg) :=
  if name = "" then .ok [.emptyName]
  else do
    let parts := pySplit M.separator name
    let head := if M.tokens.length < parts.length then
        [ErrMsg.tooManyParts M.tokens.length parts.length] else []
    let pos ← positionalErrors M (M.tokens.zip parts)
    let errs := head ++ pos
    if errs = [] ∧ isValid M name = false then .ok (errs ++ [.patternMismatch])
    else .ok errs

/-- `kwargs.get(token, "")`. -/
def kwLookup (kw : List (String × TokenValue)) (t : String) : TokenValue :=
  (kw.lookup t).getD (.s "")

/-- The per-token loop of `build_name`: normalize, validate non-empty
values, and record every token's normalized value. -/
def buildData (M : Manager) (kw : List (String × TokenValue)) :
    List String → Except Err (List (String × String))
  | [] => .ok []
  | t :: ts =>
    let normalized := normalizeTokenValue M t (kwLookup kw t)
    if normalized ≠ "" then do
      let b ← isValidToken M t normalized
      if b then do
        let rest ← buildData M kw ts
        .ok ((t, normalized) :: rest)
      else .error (.invalidValue normalized t M.separator)
    else do
      let rest ← buildData M kw ts
      .ok ((t, normalized) :: rest)

/-- `_join_tokens`: the non-empty values, in token order, joined by the
separator. -/
def joinTokens (M : Manager) (data : List (String × String)) : String :=
  String.mk (joinChars M.separator.data
    (M.tokens.filterMap fun t =>
      match data.lookup t with
      | some v => if v ≠ "" then some v.data else none
      | none => none))

/-- `_validate_global_rules`: max length (when non-zero), then the first
forbidden pattern occurring as a substring. -/
def validateGlobalRules (M : Manager) (name : String) : Except Err Unit :=
  if M.globalRules.maxLength ≠ 0 ∧ M.globalRules.maxLength < name.length then
    .error (.tooLong name M.globalRules.maxLength name.length)
  else
    match M.globalRules.forbiddenPatterns.find? (fun p => isSubstring p.data name.data) with
    | some p => .error (.forbidden name p)
    | none => .ok ()

/-- `build_name`. -/
def buildName (M : Manager) (kw : List (String × TokenValue)) : Except Err String :=
  let unknown := (kw.map Prod.fst).filter (fun k => !M.tokens.contains k)
  if unknown ≠ [] then .error (.unknownTokens unknown M.tokens)
  else do
    let data ← buildData M kw M.tokens
    let finalName := joinTokens M data
    validateGlobalRules M finalName
    .ok finalName

/-- The override-merge loop of `update_name`:
`data[token] = _normalize_token_value(token, raw)` per kwarg. -/
def mergeOverrides (M : Manager) (d : List (String × String))
    (kw : List (String × TokenValue)) : List (String × String) :=
  kw.foldl (fun d p => dictSet d p.1 (normalizeTokenValue M p.1 p.2)) d

/-- `build_name(**data)` on a string-valued dict. -/
def toKwargs (d : List (String × String)) : List (String × TokenValue) :=
  d.map (fun p => (p.1, .s p.2))

/-- `update_name`: parse, seed the first token for unparseable non-empty
names (raising when the bare value is invalid), merge normalized
overrides, rebuild. -/
def updateName (M : Manager) (name : String)
    (kw : List (String × TokenValue)) : Except Err String :=
  if (getData M name).any (fun p => p.2 ≠ "") then
    buildName M (toKwargs (mergeOverrides M (getData M name) kw))
  else if name = "" then buildName M kw
  else
    match M.tokens with
    | [] => .error .indexError
    | t0 :: _ =>
      match isValidToken M t0 name with
      | .error e => .error e
      | .ok true =>
        buildName M (toKwargs (mergeOverrides M (dictSet (getData M name) t0 name) kw))
      | .ok false => .error (.cannotParse name M.tokens t0)

/-- `get_token_value`: `get_data` lookup, raising for unknown tokens. -/
def getTokenValue (M : Manager) (name tokenName : String) : Except Err String :=
  if !M.tokens.contains tokenName then
    .error (.unknownToken tokenName M.tokens)
  else .ok (((getData M name).lookup tokenName).getD "")

/-! ### Predicates used by the theorems -/

/-- `True` unless the rule is a `CallableRule` holding a non-callable. -/
def ruleInvocable : ConcreteRule → Bool
  | .callableRule none _ => false
  | _ => true

/-- Every configured rule can be invoked without raising. -/
def RulesInvocable (M : Manager) : Prop :=
  ∀ p ∈ M.rules, ruleInvocable p.2 = true

instance (M : Manager) : Decidable (RulesInvocable M) := by
  unfold RulesInvocable
  infer_instance

/-- The regex fragment is nla-free, group-free, and can only consume a
non-empty stretch of characters free of the (single-character)
separator `c`.  The tokens-without-rules catch-all `[^c]+` and a
`ListRule` over non-empty `c`-free members satisfy this; `[^\s]+` and
unconstrained `RegexRule` patterns need not. -/
def nlaFree : Rx → Bool
  | .nla _ => false
  | .alt a b | .seq a b => nlaFree a && nlaFree b
  | .opt r | .star r | .group _ r => nlaFree r
  | _ => true

/-- The fragment contains no capture group. -/
def groupFree : Rx → Bool
  | .group _ _ => false
  | .alt a b | .seq a b => groupFree a && groupFree b
  | .opt r | .star r | .nla r => groupFree r
  | _ => true

/-- Separator-safety of a token fragment (see `nlaFree`). -/
def FragOK (c : Char) (r : Rx) : Prop :=
  nlaFree r = true ∧ groupFree r = true ∧
    ∀ (s : List Char) (p : Nat × Caps), p ∈ runRx r s → 0 < p.1 ∧ c ∉ s.take p.1

/-- The token's rule accepts exactly along its regex fragment, on
non-empty `c`-free values: acceptance implies the fragment fully
matches the value, and a full fragment match implies acceptance. -/
def RuleFragAgrees (M : Manager) (c : Char) (t : String) : Prop :=
  (∀ v : List Char, v ≠ [] → c ∉ v → isValidToken M t (String.mk v) = .ok true →
    (v.length, ([] : Caps)) ∈ runRx (rawPattern M t) v) ∧
  (∀ v : List Char, c ∉ v → (v.length, ([] : Caps)) ∈ runRx (rawPattern M t) v →
    isValidToken M t (String.mk v) = .ok true)

/-- All per-token hypotheses of the separator-safe setting at once. -/
def TokenOK (M : Manager) (c : Char) (t : String) : Prop :=
  FragOK c (rawPattern M t) ∧ RuleFragAgrees M c t

/-- `s` contains no two consecutive occurrences of `c`. -/
def noCC (c : Char) : List Char → Bool
  | [] => true
  | [_] => true
  | a :: b :: rest => !(a == c && b == c) && noCC c (b :: rest)

/-- The non-empty values form a contiguous prefix of the list. -/
def prefixAssign (vals : List String) : Bool :=
  (vals.dropWhile (· ≠ "")).all (· = "")

/-! ### Spec-side definitions (following the claims' wording, to be
compared with the functions modelled from the source) -/

/-- The normalized value `build_name` computes for a token. -/
def buildNormalized (M : Manager) (kw : List (String × TokenValue)) (t : String) : String :=
  normalizeTokenValue M t (kwLookup kw t)

/-- The claims' description of `build_name`'s output: the non-empty
normalized values joined in declared token order by the separator. -/
def assembledName (M : Manager) (kw : List (String × TokenValue)) : String :=
  String.mk (joinChars M.separator.data
    (M.tokens.filterMap fun t =>
      let v := buildNormalized M kw t
      if v ≠ "" then some v.data else none))

/-- The claim's description of `get_errors` (with the corrected
condition for the generic message): the empty-name message alone; else
the too-many-parts finding, one message per positionally invalid part,
and the generic message exactly when nothing at all was found and
`is_valid` still fails. -/
def getErrorsSpec (M : Manager) (name : String) : List ErrMsg :=
  if name = "" then [.emptyName]
  else
    let parts := pySplit M.separator name
    let tooMany := if M.tokens.length < parts.length then
        [ErrMsg.tooManyParts M.tokens.length parts.length] else []
    let pos := (M.tokens.zip parts).filterMap fun p =>
      match isValidToken M p.1 p.2 with
      | .ok true => none
      | _ => some (.invalidPart p.2 p.1)
    let base := tooMany ++ pos
    if base = [] ∧ isValid M name = false then base ++ [.patternMismatch] else base

/-- The named groups that captured during `get_data`'s match. -/
def capturedKeys (M : Manager) (name : String) : List String :=
  ((fullParseCaps (computeMatchingRegex M (true, true, false)).2 name.data).getD []).map
    Prod.fst

/-! ### Concrete managers used by counterexamples and witnesses -/

/-- No global constraints. -/
def gr0 : GlobalRules := { maxLength := 0 }

/-- The pattern `[a-z][a-zA-Z0-9]*` of the spec's descriptor rule. -/
def descRx : Rx :=
  .seq (.cls false [('a', 'z')]) (.star (.cls false [('a', 'z'), ('A', 'Z'), ('0', '9')]))

/-- The spec's example convention: tokens `[descriptor, side, usage]`,
separator `_`, descriptor pattern rule, side fixed-set rule, no usage
rule, max length 80. -/
def exM : Manager :=
  { tokens := ["descriptor", "side", "usage"], separator := "_",
    rules := [("descriptor", .regexRule descRx), ("side", .listRule ["l", "r", "c"])],
    normalizers := [], globalRules := { maxLength := 80 } }

/-- Two tokens, no rules. -/
def twoTok : Manager :=
  { tokens := ["a", "b"], separator := "_", rules := [], normalizers := [],
    globalRules := gr0 }

/-- One token, no rules. -/
def oneTok : Manager :=
  { tokens := ["a"], separator := "_", rules := [], normalizers := [],
    globalRules := gr0 }

/-- No tokens at all. -/
def zeroTok : Manager :=
  { tokens := [], separator := "_", rules := [], normalizers := [],
    globalRules := gr0 }

/-- Two tokens whose rules both have the nullable pattern `x?`. -/
def nullableM : Manager :=
  { tokens := ["a", "b"], separator := "_",
    rules := [("a", .regexRule (.opt (.str ['x']))), ("b", .regexRule (.opt (.str ['x'])))],
    normalizers := [], globalRules := gr0 }

/-- One token whose rule is a `CallableRule` holding a non-callable. -/
def poisonedM : Manager :=
  { tokens := ["a"], separator := "_",
    rules := [("a", .callableRule none "alpha")], normalizers := [],
    globalRules := gr0 }

/-- One token whose rule pattern declares a named group of its own. -/
def groupM : Manager :=
  { tokens := ["a"], separator := "_",
    rules := [("a", .regexRule (.group "foo" (.str ['x'])))], normalizers := [],
    globalRules := gr0 }

/-- A manager with a `side` normalizer (`"left" ↦ "l"` style lookup). -/
def normM : Manager :=
  { tokens := ["descriptor", "side", "usage"], separator := "_",
    rules := [("side", .listRule ["l", "r", "c"])],
    normalizers := [("side", fun v => if v = "left" then "l" else v)],
    globalRules := gr0 }

/-- The named groups declared in a fragment, in declaration order. -/
def groupsOf : Rx → List String
  | .group n r => n :: groupsOf r
  | .alt a b | .seq a b => groupsOf a ++ groupsOf b
  | .opt r | .star r | .nla r => groupsOf r
  | _ => []

end OpenRig

deriving instance DecidableEq for Except

namespace OpenRig

/-! ## General lemmas -/

theorem lookup_append {α β : Type _} [BEq α] (l1 l2 : List (α × β)) (k : α) :
    List.lookup k (l1 ++ l2) = (List.lookup k l1).or (List.lookup k l2) := by
  induction l1 with
  | nil => simp [List.lookup]
  | cons p rest ih =>
    simp only [List.cons_append, List.lookup]
    cases k == p.1 <;> simp [ih]

theorem dictSet_keys {α : Type} (d : List (String × α)) (k : String) (v : α)
    (h : k ∈ d.map Prod.fst) : (dictSet d k v).map Prod.fst = d.map Prod.fst := by
  induction d with
  | nil => simp at h
  | cons p rest ih =>
    by_cases hk : p.1 = k
    · simp [dictSet, hk]
    · simp only [List.map_cons, List.mem_cons] at h
      rcases h with h | h
      · exact absurd h.symm hk
      · simp [dictSet, hk, ih h]

theorem dictSet_lookup_ne {α : Type} (d : List (String × α)) (k t : String) (v : α)
    (h : t ≠ k) : List.lookup t (dictSet d k v) = List.lookup t d := by
  induction d with
  | nil => simp [dictSet, List.lookup, beq_false_of_ne h]
  | cons p rest ih =>
    by_cases hk : p.1 = k
    · subst hk
      simp [dictSet, List.lookup, beq_false_of_ne h]
    · simp only [dictSet, if_neg hk, List.lookup]
      cases t == p.1 <;> simp [ih]

theorem lookup_map_self {α : Type _} (ts : List String) (f : String → α) (t : String)
    (h : t ∈ ts) : List.lookup t (ts.map (fun t => (t, f t))) = some (f t) := by
  induction ts with
  | nil => simp at h
  | cons a rest ih =>
    by_cases ha : t = a
    · subst ha; simp [List.lookup]
    · simp only [List.mem_cons] at h
      rcases h with h | h
      · exact absurd h ha
      · simp only [List.map_cons, List.lookup, beq_false_of_ne ha]
        exact ih h

/-! ## Claim C7: predicate rule with a non-invocable reference -/

/-- C7 counterexample: `CallableRule.validate` on a non-invocable stored
reference raises Python's builtin `TypeError`, which is not the
library's typed configuration error (`NamingConfigError`), contrary to
the claim. -/
theorem claim7_counterexample :
    ConcreteRule.validate (.callableRule none "alpha") "x" =
      .error (.typeError "alpha") ∧
    errClass (.typeError "alpha") ≠ ErrClass.namingConfigError := by
  exact ⟨rfl, by decide⟩

/-- C7 (amended): for every predicate rule whose stored function
reference is not invocable, `validate` raises a typed error — the
builtin `TypeError` carrying the rule's label — rather than the
library's configuration error class. -/
theorem claim7_thm (nm v : String) :
    ConcreteRule.validate (.callableRule none nm) v = .error (.typeError nm) ∧
    errClass (.typeError nm) = ErrClass.typeError := ⟨rfl, rfl⟩

/-! ## Claim C8: regex-cache freshness after `add_rule` / `remove_rule` -/

theorem computeMatchingRegex_cache_irrel (M : Manager) (cc) (fl) :
    computeMatchingRegex { M with regexCache := cc } fl = computeMatchingRegex M fl := rfl

theorem computeMatchingRegex_congr (M' M : Manager) (ht : M'.tokens = M.tokens)
    (hs : M'.separator = M.separator) (hr : M'.rules = M.rules) :
    computeMatchingRegex M' = computeMatchingRegex M := by
  have htp : ∀ cg, tokenPattern M' cg = tokenPattern M cg := by
    intro cg
    funext t
    simp only [tokenPattern, rawPattern, catchAllFor, ht, hs, hr]
  funext fl
  obtain ⟨cg, fm, st⟩ := fl
  simp only [computeMatchingRegex, ht, hs, htp]

theorem getMatchingRegex_fst (M : Manager)
    (h : ∀ fl r, List.lookup fl M.regexCache = some r → r = computeMatchingRegex M fl)
    (f : Bool × Bool × Bool) : (getMatchingRegex M f).1 = computeMatchingRegex M f := by
  rcases hc : List.lookup f M.regexCache with _ | r
  · simp [getMatchingRegex, hc]
  · simp only [getMatchingRegex, hc]
    exact h f r hc

theorem getMatchingRegex_preserves (M : Manager) (f : Bool × Bool × Bool) :
    (getMatchingRegex M f).2.tokens = M.tokens ∧
    (getMatchingRegex M f).2.separator = M.separator ∧
    (getMatchingRegex M f).2.rules = M.rules := by
  rcases hc : List.lookup f M.regexCache with _ | r <;> simp [getMatchingRegex, hc]

theorem getMatchingRegex_good (M : Manager) (f : Bool × Bool × Bool)
    (h : ∀ fl r, List.lookup fl M.regexCache = some r → r = computeMatchingRegex M fl) :
    ∀ fl r, List.lookup fl (getMatchingRegex M f).2.regexCache = some r →
      r = computeMatchingRegex (getMatchingRegex M f).2 fl := by
  rcases hc : List.lookup f M.regexCache with _ | r0
  · have h2 : (getMatchingRegex M f).2 =
        { M with regexCache := M.regexCache ++ [(f, computeMatchingRegex M f)] } := by
      simp [getMatchingRegex, hc]
    rw [h2]
    intro fl r hfl
    rw [computeMatchingRegex_cache_irrel]
    simp only at hfl
    rw [lookup_append] at hfl
    rcases h3 : List.lookup fl M.regexCache with _ | r2
    · rw [h3, Option.none_or] at hfl
      by_cases hf : fl = f
      · subst hf
        simp [List.lookup] at hfl
        exact hfl.symm
      · simp [List.lookup, beq_false_of_ne hf] at hfl
    · rw [h3] at hfl
      simp only [Option.or] at hfl
      have hr2 : r2 = r := by injection hfl
      subst hr2
      exact h fl r2 h3
  · have h2 : (getMatchingRegex M f).2 = M := by simp [getMatchingRegex, hc]
    rw [h2]
    exact h

theorem runGets_fst (fs : List (Bool × Bool × Bool)) : ∀ (M : Manager),
    (∀ fl r, List.lookup fl M.regexCache = some r → r = computeMatchingRegex M fl) →
    (runGets M fs).1 = fs.map (computeMatchingRegex M) := by
  induction fs with
  | nil => intro M h; rfl
  | cons f fs ih =>
    intro M h
    have hcfg := getMatchingRegex_preserves M f
    have hcongr : computeMatchingRegex (getMatchingRegex M f).2 = computeMatchingRegex M :=
      computeMatchingRegex_congr _ _ hcfg.1 hcfg.2.1 hcfg.2.2
    show (getMatchingRegex M f).1 :: (runGets (getMatchingRegex M f).2 fs).1 = _
    rw [getMatchingRegex_fst M h f, ih _ (getMatchingRegex_good M f h), hcongr,
      List.map_cons]

/-- C8: after `add_rule` (resp. `remove_rule`) returns, every subsequent
sequence of `get_matching_regex` calls on the same instance serves
exactly the pattern computed from the updated rule set — which is what
a freshly constructed Manager with that rule set (hence an empty cache)
returns for the same flags — never a pattern cached under the previous
rule set. -/
theorem claim8_thm (M : Manager) (t : String) (rule : ConcreteRule)
    (fs : List (Bool × Bool × Bool)) :
    (runGets (addRule M t rule) fs).1 =
      fs.map (computeMatchingRegex (addRule M t rule)) ∧
    (runGets (removeRule M t) fs).1 =
      fs.map (computeMatchingRegex (removeRule M t)) := by
  constructor
  · exact runGets_fst fs (addRule M t rule)
      (by intro fl r h; simp [addRule, List.lookup] at h)
  · exact runGets_fst fs (removeRule M t)
      (by intro fl r h; simp [removeRule, List.lookup] at h)

/-! ## Claim C10: normalizers only see non-empty strings -/

/-- C10: `_normalize_token_value` returns `""` for an empty unwrapped
value without consulting the normalizer map at all, and otherwise
passes the unwrapped string to the registered normalizer (if any) and
returns the stripped result. -/
theorem claim10_thm (M : Manager) (t : String) (v : TokenValue) :
    (unwrapTV v = "" →
      ∀ ns : List (String × (String → String)),
        normalizeTokenValue { M with normalizers := ns } t v = "") ∧
    (unwrapTV v ≠ "" →
      normalizeTokenValue M t v =
        pyStrip (match M.normalizers.lookup t with
                 | some f => f (unwrapTV v)
                 | none => unwrapTV v)) := by
  constructor
  · intro h ns
    simp [normalizeTokenValue, h]
  · intro h
    simp [normalizeTokenValue, h]

/-- Witness for C10 at a concrete manager with a registered `side`
normalizer. -/
theorem claim10_witness :
    (unwrapTV (.s "left") ≠ "" ∧
      normalizeTokenValue normM "side" (.s "left") =
        pyStrip (match normM.normalizers.lookup "side" with
                 | some f => f (unwrapTV (.s "left"))
                 | none => unwrapTV (.s "left"))) ∧
    (unwrapTV (.s "") = "" ∧
      normalizeTokenValue { normM with normalizers := [] } "side" (.s "") = "") := by
  refine ⟨⟨by decide, (claim10_thm normM "side" (.s "left")).2 (by decide)⟩,
    ⟨rfl, (claim10_thm normM "side" (.s "")).1 rfl []⟩⟩


/-! ## Claim C9: `get_data` key set -/

theorem runStar_caps_keys (next : List Char → List (Nat × Caps)) (P : String → Prop)
    (hnext : ∀ s p, p ∈ next s → ∀ q ∈ p.2, P q.1) :
    ∀ (fuel : Nat) (s : List Char) (p : Nat × Caps), p ∈ runStar next fuel s →
      ∀ q ∈ p.2, P q.1 := by
  intro fuel
  induction fuel with
  | zero =>
    intro s p hp q hq
    simp only [runStar, List.mem_singleton] at hp
    subst hp
    simp at hq
  | succ n ih =>
    intro s p hp q hq
    simp only [runStar, List.mem_append, List.mem_flatMap, List.mem_singleton] at hp
    rcases hp with ⟨p1, hp1, hp2⟩ | hp
    · split at hp2
      · simp only [List.mem_map] at hp2
        obtain ⟨p2, hp2m, hp2e⟩ := hp2
        subst hp2e
        simp only [List.mem_append] at hq
        rcases hq with hq | hq
        · exact hnext s p1 hp1 q hq
        · exact ih _ p2 hp2m q hq
      · simp at hp2
    · subst hp
      simp at hq

theorem runRx_caps_keys : ∀ (r : Rx) (s : List Char) (p : Nat × Caps),
    p ∈ runRx r s → ∀ q ∈ p.2, q.1 ∈ groupsOf r := by
  intro r
  induction r with
  | eps =>
    intro s p hp q hq
    simp only [runRx, List.mem_singleton] at hp
    subst hp; simp at hq
  | str cs =>
    intro s p hp q hq
    simp only [runRx] at hp
    split at hp
    · simp only [List.mem_singleton] at hp
      subst hp; simp at hq
    · simp at hp
  | any =>
    intro s p hp q hq
    cases s <;> simp only [runRx, List.mem_singleton] at hp
    · simp at hp
    · subst hp; simp at hq
  | cls neg rs =>
    intro s p hp q hq
    cases s with
    | nil => simp [runRx] at hp
    | cons c rest =>
      simp only [runRx] at hp
      split at hp
      · simp only [List.mem_singleton] at hp
        subst hp; simp at hq
      · simp at hp
  | alt a b iha ihb =>
    intro s p hp q hq
    simp only [runRx, List.mem_append] at hp
    simp only [groupsOf, List.mem_append]
    rcases hp with hp | hp
    · exact Or.inl (iha s p hp q hq)
    · exact Or.inr (ihb s p hp q hq)
  | seq a b iha ihb =>
    intro s p hp q hq
    simp only [runRx, List.mem_flatMap, List.mem_map] at hp
    obtain ⟨p1, hp1, p2, hp2, hpe⟩ := hp
    subst hpe
    simp only [List.mem_append] at hq
    simp only [groupsOf, List.mem_append]
    rcases hq with hq | hq
    · exact Or.inl (iha s p1 hp1 q hq)
    · exact Or.inr (ihb _ p2 hp2 q hq)
  | opt r ihr =>
    intro s p hp q hq
    simp only [runRx, List.mem_append, List.mem_singleton] at hp
    rcases hp with hp | hp
    · exact ihr s p hp q hq
    · subst hp; simp at hq
  | star r ihr =>
    intro s p hp q hq
    simp only [runRx] at hp
    exact runStar_caps_keys _ (· ∈ groupsOf (Rx.star r)) (fun s p hp q hq => ihr s p hp q hq)
      s.length s p hp q hq
  | group n r ihr =>
    intro s p hp q hq
    simp only [runRx, List.mem_map] at hp
    obtain ⟨p1, hp1, hpe⟩ := hp
    subst hpe
    simp only [List.mem_append, List.mem_singleton] at hq
    simp only [groupsOf, List.mem_cons]
    rcases hq with hq | hq
    · exact Or.inr (ihr s p1 hp1 q hq)
    · subst hq; exact Or.inl rfl
  | nla r ihr =>
    intro s p hp q hq
    simp only [runRx] at hp
    split at hp
    · simp only [List.mem_singleton] at hp
      subst hp; simp at hq
    · simp at hp

theorem groupsOf_of_groupFree : ∀ (r : Rx), groupFree r = true → groupsOf r = [] := by
  intro r
  induction r <;> simp_all [groupFree, groupsOf]

theorem groupsOf_buildSuffix (sep : List Char) : ∀ gs : List Rx,
    groupsOf (buildSuffix sep gs) = gs.flatMap groupsOf := by
  intro gs
  induction gs with
  | nil => simp [buildSuffix, groupsOf]
  | cons g gs ih =>
    cases gs with
    | nil => simp [buildSuffix, groupsOf]
    | cons g2 gs2 => simp [buildSuffix, groupsOf, ih]

theorem groupsOf_lenientBody (sep : List Char) : ∀ gs : List Rx,
    groupsOf (lenientBody sep gs) = gs.flatMap groupsOf := by
  intro gs
  cases gs with
  | nil => simp [lenientBody, groupsOf]
  | cons g gs =>
    cases gs with
    | nil => simp [lenientBody, groupsOf]
    | cons g2 gs2 => simp [lenientBody, groupsOf, groupsOf_buildSuffix]

theorem foldl_dictSet_keys {β : Type _} (h : String × β → String) :
    ∀ (caps : List (String × β)) (init : List (String × String)),
      (∀ q ∈ caps, q.1 ∈ init.map Prod.fst) →
      (caps.foldl (fun d p => dictSet d p.1 (h p)) init).map Prod.fst = init.map Prod.fst := by
  intro caps
  induction caps with
  | nil => intro init _; rfl
  | cons q caps ih =>
    intro init hmem
    simp only [List.foldl_cons]
    rw [ih _ ?_, dictSet_keys]
    · exact hmem q (by simp)
    · intro q2 hq2
      rw [dictSet_keys _ _ _ (hmem q (by simp))]
      exact hmem q2 (by simp [hq2])

theorem foldl_dictSet_lookup_notmem {β : Type _} (h : String × β → String) (t : String) :
    ∀ (caps : List (String × β)) (init : List (String × String)),
      t ∉ caps.map Prod.fst →
      List.lookup t (caps.foldl (fun d p => dictSet d p.1 (h p)) init) = List.lookup t init := by
  intro caps
  induction caps with
  | nil => intro init _; rfl
  | cons q caps ih =>
    intro init hmem
    simp only [List.map_cons, List.mem_cons, not_or] at hmem
    simp only [List.foldl_cons]
    rw [ih _ hmem.2, dictSet_lookup_ne _ _ _ _ hmem.1]

theorem map_fst_pairs {α : Type _} (ts : List String) (f : String → α) :
    ((ts.map fun t => (t, f t)).map Prod.fst) = ts := by
  induction ts with
  | nil => rfl
  | cons a r ih => simp [ih]

theorem computeLenient (M : Manager) (cg fm : Bool) (htok : M.tokens ≠ []) :
    (computeMatchingRegex M (cg, fm, false)).2 =
      lenientBody M.separator.data (M.tokens.map (tokenPattern M cg)) := by
  simp [computeMatchingRegex, htok]

theorem computeStrict (M : Manager) (cg fm : Bool) (htok : M.tokens ≠ []) :
    (computeMatchingRegex M (cg, fm, true)).2 =
      strictBody M.separator.data (M.tokens.map (tokenPattern M cg)) := by
  simp [computeMatchingRegex, htok]

theorem computeEmpty (M : Manager) (fl : Bool × Bool × Bool) (htok : M.tokens = []) :
    (computeMatchingRegex M fl).2 = .eps := by
  obtain ⟨cg, fm, st⟩ := fl
  simp [computeMatchingRegex, htok]

theorem fullParseCaps_mem (r : Rx) (s : List Char) (caps : Caps)
    (h : fullParseCaps r s = some caps) : ∃ k, (k, caps) ∈ runRx r s := by
  simp only [fullParseCaps] at h
  rcases hh : ((runRx r s).filter fun p => p.1 == s.length).head? with _ | p
  · rw [hh] at h; exact Option.noConfusion h
  · rw [hh] at h
    simp only [Option.map_some'] at h
    have hpm : p ∈ (runRx r s).filter fun p => p.1 == s.length := by
      cases hl : (runRx r s).filter fun p => p.1 == s.length with
      | nil => rw [hl] at hh; simp at hh
      | cons a rest =>
        rw [hl] at hh
        simp only [List.head?_cons] at hh
        cases hh
        simp [hl]
    have := List.mem_of_mem_filter hpm
    refine ⟨p.1, ?_⟩
    cases h
    exact this

theorem claim9_thm (M : Manager) (name : String)
    (h : ∀ t ∈ M.tokens, groupFree (rawPattern M t) = true) :
    (getData M name).map Prod.fst = M.tokens ∧
    (∀ t, t ∈ M.tokens → t ∉ capturedKeys M name →
      List.lookup t (getData M name) = some "") := by
  rcases hfp : fullParseCaps (computeMatchingRegex M (true, true, false)).2 name.data
    with _ | caps
  · constructor
    · simp only [getData, hfp]
      exact map_fst_pairs M.tokens (fun _ => "")
    · intro t ht _
      simp only [getData, hfp]
      exact lookup_map_self M.tokens (fun _ => "") t ht
  · have hsub : ∀ q ∈ caps, q.1 ∈ M.tokens := by
      obtain ⟨k, hk⟩ := fullParseCaps_mem _ _ _ hfp
      intro q hq
      have hg := runRx_caps_keys _ _ _ hk q hq
      revert hg
      by_cases htok : M.tokens = []
      · rw [computeEmpty M _ htok]
        simp [groupsOf]
      · rw [computeLenient M true true htok, groupsOf_lenientBody]
        intro hmem
        simp only [List.mem_flatMap, List.mem_map] at hmem
        obtain ⟨g, ⟨t, ht, hgdef⟩, hqg⟩ := hmem
        subst hgdef
        simp only [tokenPattern, if_pos rfl, groupsOf] at hqg
        rw [groupsOf_of_groupFree _ (h t ht)] at hqg
        simp only [List.mem_singleton] at hqg
        subst hqg
        exact ht
    constructor
    · simp only [getData, hfp]
      rw [foldl_dictSet_keys (fun p => String.mk p.2) caps _ ?_]
      · exact map_fst_pairs M.tokens (fun _ => "")
      · intro q hq
        rw [map_fst_pairs M.tokens (fun _ => "")]
        exact hsub q hq
    · intro t ht hcap
      simp only [getData, hfp]
      rw [foldl_dictSet_lookup_notmem]
      · exact lookup_map_self M.tokens (fun _ => "") t ht
      · simp only [capturedKeys, hfp, Option.getD_some] at hcap
        exact hcap

/-- C9 counterexample: a rule pattern declaring a named capture group of
its own (`(?P<foo>x)`) leaks an extra key into `get_data`'s dict, so the
key set is not the declared token list. -/
theorem claim9_counterexample :
    (getData groupM "x").map Prod.fst = ["a", "foo"] ∧ groupM.tokens = ["a"] ∧
    (getData groupM "x").map Prod.fst ≠ groupM.tokens := by decide

/-- Witness for C9 at a concrete manager and input. -/
theorem claim9_witness :
    (∀ t ∈ twoTok.tokens, groupFree (rawPattern twoTok t) = true) ∧
    "b" ∈ twoTok.tokens ∧ "b" ∉ capturedKeys twoTok "q" ∧
    (getData twoTok "q").map Prod.fst = twoTok.tokens ∧
    List.lookup "b" (getData twoTok "q") = some "" := by
  refine ⟨by decide, by decide, by decide, (claim9_thm twoTok "q" (by decide)).1,
    (claim9_thm twoTok "q" (by decide)).2 "b" (by decide) (by decide)⟩


/-! ## Claim C6: `get_errors` accumulation -/

theorem except_bind_ok {ε α β : Type _} (a : α) (f : α → Except ε β) :
    (Except.ok a >>= f) = f a := rfl

theorem lookup_mem {α : Type _} (l : List (String × α)) (k : String) (v : α)
    (h : List.lookup k l = some v) : (k, v) ∈ l := by
  induction l with
  | nil => simp [List.lookup] at h
  | cons p rest ih =>
    simp only [List.lookup] at h
    cases hkb : (k == p.1) with
    | true =>
      simp only [hkb] at h
      cases h
      have hk : k = p.1 := by simpa using hkb
      simp [hk]
    | false =>
      simp only [hkb] at h
      exact List.mem_cons_of_mem _ (ih h)

theorem isValidToken_total (M : Manager) (hinv : RulesInvocable M) (t v : String) :
    ∃ b, isValidToken M t v = .ok b := by
  unfold isValidToken
  split
  · exact ⟨false, rfl⟩
  · rcases hr : M.rules.lookup t with _ | r
    · exact ⟨true, rfl⟩
    · have hi := hinv (t, r) (lookup_mem _ _ _ hr)
      cases r with
      | regexRule p => exact ⟨_, rfl⟩
      | listRule a => exact ⟨_, rfl⟩
      | callableRule f nm =>
        cases f with
        | none => simp [ruleInvocable] at hi
        | some f => exact ⟨_, rfl⟩

theorem positionalErrors_eq (M : Manager) (hinv : RulesInvocable M) :
    ∀ l : List (String × String), positionalErrors M l = .ok (l.filterMap fun p =>
      match isValidToken M p.1 p.2 with
      | .ok true => none
      | _ => some (.invalidPart p.2 p.1)) := by
  intro l
  induction l with
  | nil => rfl
  | cons q rest ih =>
    obtain ⟨b, hb⟩ := isValidToken_total M hinv q.1 q.2
    simp only [positionalErrors, hb, ih]
    cases b
    · rw [List.filterMap_cons]
      simp only [hb]
      rfl
    · rw [List.filterMap_cons]
      simp only [hb]
      rfl

theorem claim6_thm (M : Manager) (name : String) (hinv : RulesInvocable M) :
    getErrors M name = .ok (getErrorsSpec M name) := by
  unfold getErrors getErrorsSpec
  by_cases h : name = ""
  · simp [h]
  · simp only [if_neg h]
    rw [positionalErrors_eq M hinv, except_bind_ok]
    split
    all_goals
      split
      · rfl
      · rfl

/-- C6 counterexample: with one token and name `"x_y"`, the only
finding is the too-many-parts message; no positional part is invalid
and `is_valid` reports failure, yet the generic pattern-mismatch
message is **not** appended (the code's guard is `not errors`, which
the too-many-parts finding already falsifies), contrary to the claim. -/
theorem claim6_counterexample :
    getErrors oneTok "x_y" = .ok [.tooManyParts 1 2] ∧
    isValid oneTok "x_y" = false ∧
    ((oneTok.tokens.zip (pySplit oneTok.separator "x_y")).filterMap fun p =>
      match isValidToken oneTok p.1 p.2 with
      | .ok true => none
      | _ => some (ErrMsg.invalidPart p.2 p.1)) = [] ∧
    ErrMsg.patternMismatch ∉ [ErrMsg.tooManyParts 1 2] := by decide

/-- Witness for C6 at a concrete manager and name. -/
theorem claim6_witness :
    RulesInvocable exM ∧
    getErrors exM "jnt_x_l" = .ok (getErrorsSpec exM "jnt_x_l") := by
  refine ⟨by decide, claim6_thm exM "jnt_x_l" (by decide)⟩


/-! ## Claim C2: `build_name` error conditions -/

theorem except_bind_err {ε α β : Type _} (e : ε) (f : α → Except ε β) :
    (Except.error e >>= f : Except ε β) = .error e := rfl

theorem buildData_error_iff (M : Manager) (hinv : RulesInvocable M)
    (kw : List (String × TokenValue)) :
    ∀ ts : List String,
      ((∃ e, buildData M kw ts = .error e) ↔
        ∃ t ∈ ts, normalizeTokenValue M t (kwLookup kw t) ≠ "" ∧
          isValidToken M t (normalizeTokenValue M t (kwLookup kw t)) = .ok false) := by
  intro ts
  induction ts with
  | nil => simp [buildData]
  | cons t ts ih =>
    simp only [buildData]
    by_cases hn : normalizeTokenValue M t (kwLookup kw t) ≠ ""
    · rw [if_pos hn]
      obtain ⟨b, hb⟩ := isValidToken_total M hinv t (normalizeTokenValue M t (kwLookup kw t))
      rw [hb, except_bind_ok]
      cases b
      · simp only [Bool.false_eq_true, if_false]
        constructor
        · intro _
          exact ⟨t, List.mem_cons_self t ts, hn, hb⟩
        · intro _
          exact ⟨_, rfl⟩
      · simp only [if_true]
        rcases hd : buildData M kw ts with e2 | d2
        · rw [except_bind_err]
          constructor
          · intro _
            obtain ⟨t2, ht2, hc⟩ := ih.1 ⟨e2, hd⟩
            exact ⟨t2, List.mem_cons_of_mem _ ht2, hc⟩
          · intro _
            exact ⟨e2, rfl⟩
        · rw [except_bind_ok]
          constructor
          · rintro ⟨e, he⟩
            exact Except.noConfusion he
          · rintro ⟨t2, ht2, hc⟩
            rcases List.mem_cons.1 ht2 with h2 | h2
            · subst h2
              rw [hb] at hc
              simp at hc
            · obtain ⟨e, he⟩ := ih.2 ⟨t2, h2, hc⟩
              rw [hd] at he
              exact Except.noConfusion he
    · rw [if_neg hn]
      push_neg at hn
      rcases hd : buildData M kw ts with e2 | d2
      · rw [except_bind_err]
        constructor
        · intro _
          obtain ⟨t2, ht2, hc⟩ := ih.1 ⟨e2, hd⟩
          exact ⟨t2, List.mem_cons_of_mem _ ht2, hc⟩
        · intro _
          exact ⟨e2, rfl⟩
      · rw [except_bind_ok]
        constructor
        · rintro ⟨e, he⟩
          exact Except.noConfusion he
        · rintro ⟨t2, ht2, hc⟩
          rcases List.mem_cons.1 ht2 with h2 | h2
          · subst h2
            exact absurd hn hc.1
          · obtain ⟨e, he⟩ := ih.2 ⟨t2, h2, hc⟩
            rw [hd] at he
            exact Except.noConfusion he

theorem buildData_ok (M : Manager) (kw : List (String × TokenValue)) :
    ∀ ts : List String,
      (∀ t ∈ ts, normalizeTokenValue M t (kwLookup kw t) ≠ "" →
        isValidToken M t (normalizeTokenValue M t (kwLookup kw t)) = .ok true) →
      buildData M kw ts = .ok (ts.map fun t => (t, normalizeTokenValue M t (kwLookup kw t))) := by
  intro ts
  induction ts with
  | nil => intro _; rfl
  | cons t ts ih =>
    intro h
    simp only [buildData]
    by_cases hn : normalizeTokenValue M t (kwLookup kw t) ≠ ""
    · rw [if_pos hn, h t (List.mem_cons_self t ts) hn, except_bind_ok]
      simp only [if_true]
      rw [ih (fun t2 h2 => h t2 (List.mem_cons_of_mem _ h2)), except_bind_ok]
      simp
    · rw [if_neg hn, ih (fun t2 h2 => h t2 (List.mem_cons_of_mem _ h2)), except_bind_ok]
      simp

theorem joinTokens_map_pairs (M : Manager) (f : String → String) :
    joinTokens M (M.tokens.map fun t => (t, f t)) =
      String.mk (joinChars M.separator.data (M.tokens.filterMap fun t =>
        if f t ≠ "" then some (f t).data else none)) := by
  unfold joinTokens
  congr 1
  congr 1
  apply List.filterMap_congr
  intro t ht
  rw [lookup_map_self M.tokens f t ht]

theorem validateGlobal_error_iff (M : Manager) (name : String) :
    (∃ e, validateGlobalRules M name = .error e) ↔
      ((M.globalRules.maxLength ≠ 0 ∧ M.globalRules.maxLength < name.length) ∨
       ∃ p ∈ M.globalRules.forbiddenPatterns, isSubstring p.data name.data = true) := by
  unfold validateGlobalRules
  split
  · rename_i hlen
    simp only [iff_true_intro (Or.inl hlen)]
    exact ⟨fun _ => trivial, fun _ => ⟨_, rfl⟩⟩
  · rename_i hlen
    split
    · rename_i p hf
      constructor
      · intro _
        refine Or.inr ⟨p, List.mem_of_find?_eq_some hf, ?_⟩
        have := List.find?_some hf
        simpa using this
      · intro _
        exact ⟨_, rfl⟩
    · rename_i hf
      constructor
      · rintro ⟨e, he⟩
        exact Except.noConfusion he
      · rintro (h | ⟨p, hp, hs⟩)
        · exact absurd h hlen
        · have := List.find?_eq_none.1 hf p hp
          simp [hs] at this

theorem validateGlobal_ok (M : Manager) (name : String)
    (h : ¬((M.globalRules.maxLength ≠ 0 ∧ M.globalRules.maxLength < name.length) ∨
       ∃ p ∈ M.globalRules.forbiddenPatterns, isSubstring p.data name.data = true)) :
    validateGlobalRules M name = .ok () := by
  rcases hv : validateGlobalRules M name with e | u
  · exact absurd ((validateGlobal_error_iff M name).1 ⟨e, hv⟩) h
  · rfl

theorem isValidToken_globalRules_irrel (M : Manager) (gr : GlobalRules) (t v : String) :
    isValidToken { M with globalRules := gr } t v = isValidToken M t v := rfl

theorem allValidTokens_globalRules_irrel (M : Manager) (gr : GlobalRules) :
    ∀ l : List (String × String),
      allValidTokens { M with globalRules := gr } l = allValidTokens M l := by
  intro l
  induction l with
  | nil => rfl
  | cons p rest ih =>
    obtain ⟨t, v⟩ := p
    by_cases hv : v = ""
    · simp only [allValidTokens, if_pos hv, ih]
    · simp only [allValidTokens, if_neg hv, isValidToken_globalRules_irrel, ih]

theorem getData_globalRules_irrel (M : Manager) (gr : GlobalRules) (name : String) :
    getData { M with globalRules := gr } name = getData M name := by
  unfold getData
  rw [computeMatchingRegex_congr { M with globalRules := gr } M rfl rfl rfl]

theorem isValid_globalRules_irrel (M : Manager) (gr : GlobalRules) (name : String) :
    isValid { M with globalRules := gr } name = isValid M name := by
  unfold isValid
  rw [computeMatchingRegex_congr { M with globalRules := gr } M rfl rfl rfl,
    getData_globalRules_irrel, allValidTokens_globalRules_irrel]

theorem buildName_ok_eq (M : Manager) (hinv : RulesInvocable M)
    (kw : List (String × TokenValue))
    (h1 : (kw.map Prod.fst).filter (fun k => !M.tokens.contains k) = [])
    (h2 : ¬∃ t ∈ M.tokens, normalizeTokenValue M t (kwLookup kw t) ≠ "" ∧
        isValidToken M t (normalizeTokenValue M t (kwLookup kw t)) = .ok false)
    (h3 : ¬((M.globalRules.maxLength ≠ 0 ∧
          M.globalRules.maxLength < (assembledName M kw).length) ∨
       ∃ p ∈ M.globalRules.forbiddenPatterns,
          isSubstring p.data (assembledName M kw).data = true)) :
    buildName M kw = .ok (assembledName M kw) := by
  have hok := buildData_ok M kw M.tokens (fun t ht hne => by
    obtain ⟨b, hb⟩ := isValidToken_total M hinv t _
    cases b
    · exact absurd ⟨t, ht, hne, hb⟩ h2
    · exact hb)
  have hjoin : joinTokens M (M.tokens.map fun t =>
      (t, normalizeTokenValue M t (kwLookup kw t))) = assembledName M kw := by
    rw [joinTokens_map_pairs]
    simp only [assembledName, buildNormalized]
  unfold buildName
  rw [if_neg (by rw [h1]; simp), hok, except_bind_ok]
  simp only [hjoin, validateGlobal_ok M _ h3, except_bind_ok]

/-- C2 (amended): provided every callable rule holds an invocable
function, `build_name` raises exactly when a supplied keyword key is
not a declared token, a non-empty normalized value fails
`is_valid_token`, the assembled name exceeds a non-zero max length, or
the assembled name contains a forbidden substring; in all other cases
it returns the non-empty normalized values joined in declared token
order by the separator.  `is_valid` and `get_data` do not consult the
global rules, which are enforced only by `build_name`'s final check.
(With a non-invocable callable rule, `build_name` instead propagates a
`TypeError`, see the counterexample.) -/
theorem claim2_thm (M : Manager) (kw : List (String × TokenValue))
    (hinv : RulesInvocable M) :
    ((∃ e, buildName M kw = .error e) ↔
      ((∃ k ∈ kw.map Prod.fst, k ∉ M.tokens) ∨
       (∃ t ∈ M.tokens, buildNormalized M kw t ≠ "" ∧
          isValidToken M t (buildNormalized M kw t) = .ok false) ∨
       ((M.globalRules.maxLength ≠ 0 ∧
          M.globalRules.maxLength < (assembledName M kw).length) ∨
        ∃ p ∈ M.globalRules.forbiddenPatterns,
          isSubstring p.data (assembledName M kw).data = true))) ∧
    ((¬((∃ k ∈ kw.map Prod.fst, k ∉ M.tokens) ∨
        (∃ t ∈ M.tokens, buildNormalized M kw t ≠ "" ∧
           isValidToken M t (buildNormalized M kw t) = .ok false) ∨
        ((M.globalRules.maxLength ≠ 0 ∧
           M.globalRules.maxLength < (assembledName M kw).length) ∨
         ∃ p ∈ M.globalRules.forbiddenPatterns,
           isSubstring p.data (assembledName M kw).data = true))) →
      buildName M kw = .ok (assembledName M kw)) ∧
    (∀ (gr : GlobalRules) (name2 : String),
      isValid { M with globalRules := gr } name2 = isValid M name2 ∧
      getData { M with globalRules := gr } name2 = getData M name2) := by
  simp only [buildNormalized]
  by_cases hu : (kw.map Prod.fst).filter (fun k => !M.tokens.contains k) = []
  · have hd1 : ¬ (∃ k ∈ kw.map Prod.fst, k ∉ M.tokens) := by
      rintro ⟨k, hk, hkn⟩
      have hmem : k ∈ (kw.map Prod.fst).filter (fun k => !M.tokens.contains k) :=
        List.mem_filter.2 ⟨hk, by simpa using hkn⟩
      rw [hu] at hmem
      simp at hmem
    refine ⟨?_, ?_, fun gr name2 =>
      ⟨isValid_globalRules_irrel M gr name2, getData_globalRules_irrel M gr name2⟩⟩
    · by_cases hbad : ∃ t ∈ M.tokens, normalizeTokenValue M t (kwLookup kw t) ≠ "" ∧
          isValidToken M t (normalizeTokenValue M t (kwLookup kw t)) = .ok false
      · obtain ⟨e, he⟩ := (buildData_error_iff M hinv kw M.tokens).2 hbad
        unfold buildName
        rw [if_neg (by rw [hu]; simp), he, except_bind_err]
        exact ⟨fun _ => Or.inr (Or.inl hbad), fun _ => ⟨e, rfl⟩⟩
      · have hok := buildData_ok M kw M.tokens (fun t ht hne => by
          obtain ⟨b, hb⟩ := isValidToken_total M hinv t _
          cases b
          · exact absurd ⟨t, ht, hne, hb⟩ hbad
          · exact hb)
        have hjoin : joinTokens M (M.tokens.map fun t =>
            (t, normalizeTokenValue M t (kwLookup kw t))) = assembledName M kw := by
          rw [joinTokens_map_pairs]
          simp only [assembledName, buildNormalized]
        by_cases hg : ((M.globalRules.maxLength ≠ 0 ∧
            M.globalRules.maxLength < (assembledName M kw).length) ∨
            ∃ p ∈ M.globalRules.forbiddenPatterns,
              isSubstring p.data (assembledName M kw).data = true)
        · obtain ⟨e, he⟩ := (validateGlobal_error_iff M (assembledName M kw)).2 hg
          unfold buildName
          rw [if_neg (by rw [hu]; simp), hok, except_bind_ok]
          simp only [hjoin, he, except_bind_err]
          exact ⟨fun _ => Or.inr (Or.inr hg), fun _ => ⟨e, rfl⟩⟩
        · rw [buildName_ok_eq M hinv kw hu hbad hg]
          constructor
          · rintro ⟨e, he⟩
            exact Except.noConfusion he
          · rintro (h | h | h)
            · exact absurd h hd1
            · exact absurd h hbad
            · exact absurd h hg
    · intro hno
      exact buildName_ok_eq M hinv kw hu (fun h => hno (Or.inr (Or.inl h)))
        (fun h => hno (Or.inr (Or.inr h)))
  · refine ⟨?_, ?_, fun gr name2 =>
      ⟨isValid_globalRules_irrel M gr name2, getData_globalRules_irrel M gr name2⟩⟩
    · unfold buildName
      rw [if_pos (by simpa using hu)]
      constructor
      · intro _
        left
        obtain ⟨k, hk⟩ := List.exists_mem_of_ne_nil _ hu
        have hm := List.mem_filter.1 hk
        exact ⟨k, hm.1, by simpa using hm.2⟩
      · intro _
        exact ⟨_, rfl⟩
    · intro hno
      exfalso
      apply hno
      left
      obtain ⟨k, hk⟩ := List.exists_mem_of_ne_nil _ hu
      have hm := List.mem_filter.1 hk
      exact ⟨k, hm.1, by simpa using hm.2⟩

/-- C2 counterexample: with a `CallableRule` holding a non-callable,
`build_name` raises the builtin `TypeError` — not a validation error —
although none of the claim's four conditions holds (the key is
declared, `is_valid_token` does not return `False` — it raises — and no
global constraint is violated), so "in all other cases it returns the
joined values" fails. -/
theorem claim2_counterexample :
    buildName poisonedM [("a", .s "x")] = .error (.typeError "alpha") ∧
    errClass (.typeError "alpha") ≠ ErrClass.namingValidationError ∧
    "a" ∈ poisonedM.tokens ∧
    ¬(buildNormalized poisonedM [("a", .s "x")] "a" ≠ "" ∧
      isValidToken poisonedM "a"
        (buildNormalized poisonedM [("a", .s "x")] "a") = .ok false) ∧
    poisonedM.globalRules.maxLength = 0 ∧
    poisonedM.globalRules.forbiddenPatterns = [] := by decide

/-- Witness for C2 at the spec's example convention. -/
theorem claim2_witness :
    RulesInvocable exM ∧
    buildName exM [("descriptor", .s "arm"), ("side", .s "l")] =
      .ok (assembledName exM [("descriptor", .s "arm"), ("side", .s "l")]) := by
  refine ⟨by decide, (claim2_thm exM _ (by decide)).2.1 (by decide)⟩


/-! ## Claim C5: `update_name` semantics -/

theorem runStar_caps_vals (next : List Char → List (Nat × Caps))
    (hnext : ∀ s p, p ∈ next s → ∀ q ∈ p.2, q.2.length ≤ s.length) :
    ∀ (fuel : Nat) (s : List Char) (p : Nat × Caps), p ∈ runStar next fuel s →
      ∀ q ∈ p.2, q.2.length ≤ s.length := by
  intro fuel
  induction fuel with
  | zero =>
    intro s p hp q hq
    simp only [runStar, List.mem_singleton] at hp
    subst hp
    simp at hq
  | succ m ih =>
    intro s p hp q hq
    simp only [runStar, List.mem_append, List.mem_flatMap, List.mem_singleton] at hp
    rcases hp with ⟨p1, hp1, hp2⟩ | hp
    · split at hp2
      · simp only [List.mem_map] at hp2
        obtain ⟨p2, hp2m, hp2e⟩ := hp2
        subst hp2e
        simp only [List.mem_append] at hq
        rcases hq with hq | hq
        · exact hnext s p1 hp1 q hq
        · exact le_trans (ih _ p2 hp2m q hq) (by simp)
      · simp at hp2
    · subst hp
      simp at hq

theorem runRx_caps_vals : ∀ (r : Rx) (s : List Char) (p : Nat × Caps),
    p ∈ runRx r s → ∀ q ∈ p.2, q.2.length ≤ s.length := by
  intro r
  induction r with
  | eps =>
    intro s p hp q hq
    simp only [runRx, List.mem_singleton] at hp
    subst hp; simp at hq
  | str cs =>
    intro s p hp q hq
    simp only [runRx] at hp
    split at hp
    · simp only [List.mem_singleton] at hp
      subst hp; simp at hq
    · simp at hp
  | any =>
    intro s p hp q hq
    cases s <;> simp only [runRx, List.mem_singleton] at hp
    · simp at hp
    · subst hp; simp at hq
  | cls neg rs =>
    intro s p hp q hq
    cases s with
    | nil => simp [runRx] at hp
    | cons c rest =>
      simp only [runRx] at hp
      split at hp
      · simp only [List.mem_singleton] at hp
        subst hp; simp at hq
      · simp at hp
  | alt a b iha ihb =>
    intro s p hp q hq
    simp only [runRx, List.mem_append] at hp
    rcases hp with hp | hp
    · exact iha s p hp q hq
    · exact ihb s p hp q hq
  | seq a b iha ihb =>
    intro s p hp q hq
    simp only [runRx, List.mem_flatMap, List.mem_map] at hp
    obtain ⟨p1, hp1, p2, hp2, hpe⟩ := hp
    subst hpe
    simp only [List.mem_append] at hq
    rcases hq with hq | hq
    · exact iha s p1 hp1 q hq
    · exact le_trans (ihb _ p2 hp2 q hq) (by simp)
  | opt r ihr =>
    intro s p hp q hq
    simp only [runRx, List.mem_append, List.mem_singleton] at hp
    rcases hp with hp | hp
    · exact ihr s p hp q hq
    · subst hp; simp at hq
  | star r ihr =>
    intro s p hp q hq
    simp only [runRx] at hp
    exact runStar_caps_vals (fun t => runRx r t)
      (fun s2 p2 hp2 q2 hq2 => ihr s2 p2 hp2 q2 hq2) s.length s p hp q hq
  | group n r ihr =>
    intro s p hp q hq
    simp only [runRx, List.mem_map] at hp
    obtain ⟨p1, hp1, hpe⟩ := hp
    subst hpe
    simp only [List.mem_append, List.mem_singleton] at hq
    rcases hq with hq | hq
    · exact ihr s p1 hp1 q hq
    · subst hq
      simp
  | nla r ihr =>
    intro s p hp q hq
    simp only [runRx] at hp
    split at hp
    · simp only [List.mem_singleton] at hp
      subst hp; simp at hq
    · simp at hp

theorem dictSet_values_pred {α : Type _} (P : α → Prop) :
    ∀ (d : List (String × α)) (k : String) (v : α),
      (∀ p ∈ d, P p.2) → P v → ∀ p ∈ dictSet d k v, P p.2 := by
  intro d
  induction d with
  | nil =>
    intro k v _ hv p hp
    simp only [dictSet, List.mem_singleton] at hp
    subst hp
    exact hv
  | cons p0 rest ih =>
    intro k v hd hv p hp
    simp only [dictSet] at hp
    split at hp
    · rcases List.mem_cons.1 hp with h | h
      · subst h; exact hv
      · exact hd _ (List.mem_cons_of_mem _ h)
    · rcases List.mem_cons.1 hp with h | h
      · subst h; exact hd p0 (List.mem_cons_self p0 rest)
      · exact ih k v (fun p2 h2 => hd p2 (List.mem_cons_of_mem _ h2)) hv p h

theorem foldl_dictSet_all_blank :
    ∀ (caps : Caps) (init : List (String × String)),
      (∀ q ∈ caps, q.2.length = 0) → (∀ p ∈ init, p.2 = "") →
      ∀ p ∈ caps.foldl (fun d p => dictSet d p.1 (String.mk p.2)) init, p.2 = "" := by
  intro caps
  induction caps with
  | nil => intro init _ h p hp; exact h p hp
  | cons q rest ih =>
    intro init hvals h p hp
    simp only [List.foldl_cons] at hp
    refine ih _ (fun q2 h2 => hvals q2 (List.mem_cons_of_mem _ h2)) ?_ p hp
    refine dictSet_values_pred (fun v => v = "") init q.1 (String.mk q.2) h ?_
    have hq2 : q.2 = [] :=
      List.eq_nil_of_length_eq_zero (hvals q (List.mem_cons_self q rest))
    rw [hq2]

theorem getData_empty_blank (M : Manager) : ∀ p ∈ getData M "", p.2 = "" := by
  unfold getData
  rcases hfp : fullParseCaps (computeMatchingRegex M (true, true, false)).2
      (String.data "") with _ | caps
  · intro p hp
    obtain ⟨t, _, ht⟩ := List.mem_map.1 hp
    rw [← ht]
  · obtain ⟨k, hk⟩ := fullParseCaps_mem _ _ _ hfp
    intro p hp
    refine foldl_dictSet_all_blank caps _ (fun q hq => ?_) (fun p2 h2 => ?_) p hp
    · simpa using runRx_caps_vals _ _ _ hk q hq
    · obtain ⟨t, _, ht⟩ := List.mem_map.1 h2
      rw [← ht]

theorem getData_empty_any_false (M : Manager) :
    (getData M "").any (fun p => p.2 ≠ "") = false := by
  rw [List.any_eq_false]
  intro p hp
  simpa using getData_empty_blank M p hp

/-- C5 (amended): `update_name` behaves as described — empty name means
`build_name(overrides)`; a parsed name has the normalized overrides
merged on top of the extracted data and is rebuilt; an unparseable
non-empty name is seeded as the first declared token's value when that
token's validity check accepts it and a validation error is raised when
the check rejects it (provided at least one token is declared — with
zero declared tokens an `IndexError` escapes instead, see the
counterexample) — and concretely
`update_name("arm_l_jnt", side="r") = "arm_r_jnt"`. -/
theorem claim5_thm (M : Manager) (name : String) (kw : List (String × TokenValue)) :
    (updateName M "" kw = buildName M kw) ∧
    ((getData M name).any (fun p => p.2 ≠ "") = true →
      updateName M name kw =
        buildName M (toKwargs (mergeOverrides M (getData M name) kw))) ∧
    (∀ t0 rest, M.tokens = t0 :: rest →
      (getData M name).any (fun p => p.2 ≠ "") = false → name ≠ "" →
      (isValidToken M t0 name = .ok true →
        updateName M name kw = buildName M
          (toKwargs (mergeOverrides M (dictSet (getData M name) t0 name) kw))) ∧
      (isValidToken M t0 name = .ok false →
        updateName M name kw = .error (.cannotParse name M.tokens t0))) ∧
    (updateName exM "arm_l_jnt" [("side", .s "r")] = .ok "arm_r_jnt") := by
  refine ⟨?_, ?_, ?_, by decide⟩
  · unfold updateName
    rw [getData_empty_any_false M]
    simp
  · intro hany
    simp only [updateName]
    rw [hany]
    simp
  · intro t0 rest htok hany hname
    constructor
    · intro hvalid
      simp only [updateName]
      rw [hany, htok]
      simp only [Bool.false_eq_true, if_false, if_neg hname, hvalid]
    · intro hvalid
      simp only [updateName]
      rw [hany, htok]
      simp only [Bool.false_eq_true, if_false, if_neg hname, hvalid]

/-- C5 counterexample: with zero declared tokens there is no first
token to seed; `update_name` on an unparseable non-empty name raises
`IndexError` (`self.tokens[0]`), not the claimed validation error. -/
theorem claim5_counterexample :
    updateName zeroTok "x" [] = .error .indexError ∧
    errClass .indexError ≠ ErrClass.namingValidationError := by decide

/-- Witness for C5: the parsed-name branch and the seeding branch at
concrete inputs. -/
theorem claim5_witness :
    ((getData exM "arm_l".data.asString).any (fun p => p.2 ≠ "") = true ∧
      updateName exM "arm_l" [("side", .s "r")] =
        buildName exM (toKwargs (mergeOverrides exM (getData exM "arm_l")
          [("side", .s "r")]))) ∧
    (exM.tokens = "descriptor" :: ["side", "usage"] ∧
      (getData exM "9x").any (fun p => p.2 ≠ "") = false ∧ "9x" ≠ "" ∧
      isValidToken exM "descriptor" "9x" = .ok false ∧
      updateName exM "9x" [] = .error (.cannotParse "9x" exM.tokens "descriptor")) := by
  constructor
  · exact ⟨by decide, (claim5_thm exM "arm_l" [("side", .s "r")]).2.1 (by decide)⟩
  · refine ⟨rfl, by decide, by decide, by decide, ?_⟩
    exact ((claim5_thm exM "9x" []).2.2.1 "descriptor" ["side", "usage"] rfl
      (by decide) (by decide)).2 (by decide)

/-! ### Shared regex-fragment lemmas (claims C1, C3, C4) -/

theorem runStar_consumed_le (next : List Char → List (Nat × Caps))
    (hnext : ∀ s p, p ∈ next s → p.1 ≤ s.length) :
    ∀ (fuel : Nat) (s : List Char) (p : Nat × Caps), p ∈ runStar next fuel s →
      p.1 ≤ s.length := by
  intro fuel
  induction fuel with
  | zero =>
    intro s p hp
    simp only [runStar, List.mem_singleton] at hp
    subst hp
    simp
  | succ n ih =>
    intro s p hp
    simp only [runStar, List.mem_append, List.mem_flatMap, List.mem_singleton] at hp
    rcases hp with ⟨p1, hp1, hp2⟩ | hp
    · split at hp2
      · simp only [List.mem_map] at hp2
        obtain ⟨p2, hp2m, hp2e⟩ := hp2
        subst hp2e
        have h1 := hnext s p1 hp1
        have h2 := ih _ p2 hp2m
        simp only [List.length_drop] at h2
        simp only
        omega
      · simp at hp2
    · subst hp
      simp

theorem runRx_consumed_le : ∀ (r : Rx) (s : List Char) (p : Nat × Caps),
    p ∈ runRx r s → p.1 ≤ s.length := by
  intro r
  induction r with
  | eps =>
    intro s p hp
    simp only [runRx, List.mem_singleton] at hp
    subst hp; simp
  | str cs =>
    intro s p hp
    simp only [runRx] at hp
    split at hp
    · rename_i hpre
      simp only [List.mem_singleton] at hp
      subst hp
      exact (List.isPrefixOf_iff_prefix.1 hpre).length_le
    · simp at hp
  | any =>
    intro s p hp
    cases s <;> simp only [runRx, List.mem_singleton] at hp
    · simp at hp
    · subst hp; simp
  | cls neg rs =>
    intro s p hp
    cases s with
    | nil => simp [runRx] at hp
    | cons c rest =>
      simp only [runRx] at hp
      split at hp
      · simp only [List.mem_singleton] at hp
        subst hp; simp
      · simp at hp
  | alt a b iha ihb =>
    intro s p hp
    simp only [runRx, List.mem_append] at hp
    rcases hp with hp | hp
    · exact iha s p hp
    · exact ihb s p hp
  | seq a b iha ihb =>
    intro s p hp
    simp only [runRx, List.mem_flatMap, List.mem_map] at hp
    obtain ⟨p1, hp1, p2, hp2, hpe⟩ := hp
    subst hpe
    have h1 := iha s p1 hp1
    have h2 := ihb _ p2 hp2
    simp only [List.length_drop] at h2
    simp only
    omega
  | opt r ihr =>
    intro s p hp
    simp only [runRx, List.mem_append, List.mem_singleton] at hp
    rcases hp with hp | hp
    · exact ihr s p hp
    · subst hp; simp
  | star r ihr =>
    intro s p hp
    simp only [runRx] at hp
    exact runStar_consumed_le _ (fun s2 p2 h2 => ihr s2 p2 h2) s.length s p hp
  | group n r ihr =>
    intro s p hp
    simp only [runRx, List.mem_map] at hp
    obtain ⟨p1, hp1, hpe⟩ := hp
    subst hpe
    exact ihr s p1 hp1
  | nla r ihr =>
    intro s p hp
    simp only [runRx] at hp
    split at hp
    · simp only [List.mem_singleton] at hp
      subst hp; simp
    · simp at hp

theorem runStar_extend (next : List Char → List (Nat × Caps)) (u : List Char)
    (hle : ∀ s p, p ∈ next s → p.1 ≤ s.length)
    (hext : ∀ s p, p ∈ next s → p ∈ next (s ++ u)) :
    ∀ (fuel : Nat) (s : List Char) (p : Nat × Caps), p ∈ runStar next fuel s →
      ∀ fuel2, fuel ≤ fuel2 → p ∈ runStar next fuel2 (s ++ u) := by
  intro fuel
  induction fuel with
  | zero =>
    intro s p hp fuel2 _
    simp only [runStar, List.mem_singleton] at hp
    subst hp
    cases fuel2 <;> simp [runStar]
  | succ n ih =>
    intro s p hp fuel2 hf2
    rcases fuel2 with _ | m
    · omega
    simp only [runStar, List.mem_append, List.mem_flatMap, List.mem_singleton] at hp ⊢
    rcases hp with ⟨p1, hp1, hp2⟩ | hp
    · split at hp2
      · rename_i hpos
        simp only [List.mem_map] at hp2
        obtain ⟨p2, hp2m, hp2e⟩ := hp2
        left
        refine ⟨p1, hext s p1 hp1, ?_⟩
        rw [if_pos hpos]
        simp only [List.mem_map]
        refine ⟨p2, ?_, hp2e⟩
        rw [List.drop_append_of_le_length (hle s p1 hp1)]
        exact ih _ p2 hp2m m (by omega)
      · simp at hp2
    · exact Or.inr hp

theorem runRx_extend (u : List Char) : ∀ (r : Rx), nlaFree r = true →
    ∀ (s : List Char) (p : Nat × Caps), p ∈ runRx r s → p ∈ runRx r (s ++ u) := by
  intro r
  induction r with
  | eps =>
    intro _ s p hp
    simpa [runRx] using hp
  | str cs =>
    intro _ s p hp
    simp only [runRx] at hp ⊢
    split at hp
    · rename_i hpre
      rw [if_pos (List.isPrefixOf_iff_prefix.2
        ((List.isPrefixOf_iff_prefix.1 hpre).trans (List.prefix_append s u)))]
      exact hp
    · simp at hp
  | any =>
    intro _ s p hp
    cases s with
    | nil => simp [runRx] at hp
    | cons c rest => simpa [runRx] using hp
  | cls neg rs =>
    intro _ s p hp
    cases s with
    | nil => simp [runRx] at hp
    | cons c rest =>
      simp only [runRx, List.cons_append] at hp ⊢
      exact hp
  | alt a b iha ihb =>
    intro h s p hp
    simp only [nlaFree, Bool.and_eq_true] at h
    simp only [runRx, List.mem_append] at hp ⊢
    rcases hp with hp | hp
    · exact Or.inl (iha h.1 s p hp)
    · exact Or.inr (ihb h.2 s p hp)
  | seq a b iha ihb =>
    intro h s p hp
    simp only [nlaFree, Bool.and_eq_true] at h
    simp only [runRx, List.mem_flatMap, List.mem_map] at hp ⊢
    obtain ⟨p1, hp1, p2, hp2, hpe⟩ := hp
    refine ⟨p1, iha h.1 s p1 hp1, p2, ?_, hpe⟩
    rw [List.drop_append_of_le_length (runRx_consumed_le a s p1 hp1)]
    exact ihb h.2 _ p2 hp2
  | opt r ihr =>
    intro h s p hp
    simp only [nlaFree] at h
    simp only [runRx, List.mem_append, List.mem_singleton] at hp ⊢
    rcases hp with hp | hp
    · exact Or.inl (ihr h s p hp)
    · exact Or.inr hp
  | star r ihr =>
    intro h s p hp
    simp only [nlaFree] at h
    simp only [runRx] at hp ⊢
    exact runStar_extend _ u (fun s2 p2 h2 => runRx_consumed_le r s2 p2 h2)
      (fun s2 p2 h2 => ihr h s2 p2 h2) s.length s p hp (s ++ u).length (by simp)
  | group n r ihr =>
    intro h s p hp
    simp only [nlaFree] at h
    simp only [runRx, List.mem_map] at hp ⊢
    obtain ⟨p1, hp1, hpe⟩ := hp
    refine ⟨p1, ihr h s p1 hp1, ?_⟩
    rw [List.take_append_of_le_length (runRx_consumed_le r s p1 hp1)]
    exact hpe
  | nla r ihr =>
    intro h
    simp [nlaFree] at h

theorem runStar_caps_nil (next : List Char → List (Nat × Caps))
    (hnext : ∀ s p, p ∈ next s → p.2 = []) :
    ∀ (fuel : Nat) (s : List Char) (p : Nat × Caps), p ∈ runStar next fuel s →
      p.2 = [] := by
  intro fuel
  induction fuel with
  | zero =>
    intro s p hp
    simp only [runStar, List.mem_singleton] at hp
    subst hp
    rfl
  | succ n ih =>
    intro s p hp
    simp only [runStar, List.mem_append, List.mem_flatMap, List.mem_singleton] at hp
    rcases hp with ⟨p1, hp1, hp2⟩ | hp
    · split at hp2
      · simp only [List.mem_map] at hp2
        obtain ⟨p2, hp2m, hp2e⟩ := hp2
        subst hp2e
        simp [hnext s p1 hp1, ih _ p2 hp2m]
      · simp at hp2
    · subst hp
      rfl

theorem groupFree_caps : ∀ (r : Rx), groupFree r = true →
    ∀ (s : List Char) (p : Nat × Caps), p ∈ runRx r s → p.2 = [] := by
  intro r
  induction r with
  | eps =>
    intro _ s p hp
    simp only [runRx, List.mem_singleton] at hp
    subst hp; rfl
  | str cs =>
    intro _ s p hp
    simp only [runRx] at hp
    split at hp
    · simp only [List.mem_singleton] at hp
      subst hp; rfl
    · simp at hp
  | any =>
    intro _ s p hp
    cases s <;> simp only [runRx, List.mem_singleton] at hp
    · simp at hp
    · subst hp; rfl
  | cls neg rs =>
    intro _ s p hp
    cases s with
    | nil => simp [runRx] at hp
    | cons c rest =>
      simp only [runRx] at hp
      split at hp
      · simp only [List.mem_singleton] at hp
        subst hp; rfl
      · simp at hp
  | alt a b iha ihb =>
    intro h s p hp
    simp only [groupFree, Bool.and_eq_true] at h
    simp only [runRx, List.mem_append] at hp
    rcases hp with hp | hp
    · exact iha h.1 s p hp
    · exact ihb h.2 s p hp
  | seq a b iha ihb =>
    intro h s p hp
    simp only [groupFree, Bool.and_eq_true] at h
    simp only [runRx, List.mem_flatMap, List.mem_map] at hp
    obtain ⟨p1, hp1, p2, hp2, hpe⟩ := hp
    subst hpe
    simp [iha h.1 s p1 hp1, ihb h.2 _ p2 hp2]
  | opt r ihr =>
    intro h s p hp
    simp only [groupFree] at h
    simp only [runRx, List.mem_append, List.mem_singleton] at hp
    rcases hp with hp | hp
    · exact ihr h s p hp
    · subst hp; rfl
  | star r ihr =>
    intro h s p hp
    simp only [groupFree] at h
    simp only [runRx] at hp
    exact runStar_caps_nil _ (fun s2 p2 h2 => ihr h s2 p2 h2) s.length s p hp
  | group n r ihr =>
    intro h
    simp [groupFree] at h
  | nla r ihr =>
    intro h s p hp
    simp only [runRx] at hp
    split at hp
    · simp only [List.mem_singleton] at hp
      subst hp; rfl
    · simp at hp

theorem isSubstring_singleton (c : Char) :
    ∀ s : List Char, isSubstring [c] s = true ↔ c ∈ s := by
  intro s
  induction s with
  | nil => simp [isSubstring, List.isPrefixOf]
  | cons a rest ih =>
    simp only [isSubstring, Bool.or_eq_true, List.mem_cons, ih, List.isPrefixOf,
      Bool.and_eq_true, beq_iff_eq, List.isPrefixOf_nil_left, and_true]

theorem runRx_seq_mem_intro (a b : Rx) (s : List Char) (pa pb : Nat × Caps)
    (ha : pa ∈ runRx a s) (hb : pb ∈ runRx b (s.drop pa.1)) :
    (pa.1 + pb.1, pa.2 ++ pb.2) ∈ runRx (.seq a b) s := by
  simp only [runRx, List.mem_flatMap, List.mem_map]
  exact ⟨pa, ha, pb, hb, rfl⟩

theorem runRx_seq_mem_elim {a b : Rx} {s : List Char} {p : Nat × Caps}
    (h : p ∈ runRx (.seq a b) s) :
    ∃ pa pb, pa ∈ runRx a s ∧ pb ∈ runRx b (s.drop pa.1) ∧
      p = (pa.1 + pb.1, pa.2 ++ pb.2) := by
  simp only [runRx, List.mem_flatMap, List.mem_map] at h
  obtain ⟨pa, hpa, pb, hpb, he⟩ := h
  exact ⟨pa, pb, hpa, hpb, he.symm⟩

theorem runRx_star_eq (r : Rx) (s : List Char) :
    runRx (.star r) s = runStar (runRx r) s.length s := rfl

theorem charInRanges_single (c ch : Char) :
    charInRanges ch [(c, c)] = true ↔ ch = c := by
  simp only [charInRanges, List.any_cons, List.any_nil, Bool.or_false,
    Bool.and_eq_true, decide_eq_true_eq]
  constructor
  · rintro ⟨h1, h2⟩
    exact le_antisymm h2 h1
  · rintro rfl
    exact ⟨le_refl _, le_refl _⟩

theorem runRx_negcls_mem (c : Char) (s : List Char) (p : Nat × Caps) :
    p ∈ runRx (.cls true [(c, c)]) s ↔
      ∃ ch t, s = ch :: t ∧ ch ≠ c ∧ p = (1, []) := by
  cases s with
  | nil => simp [runRx]
  | cons ch t =>
    simp only [runRx]
    split
    · rename_i hcond
      simp only [bne_iff_ne, ne_eq] at hcond
      have hne : ch ≠ c := by
        intro he
        exact hcond (by simp [charInRanges_single, he])
      simp only [List.mem_singleton]
      constructor
      · intro hp
        exact ⟨ch, t, rfl, hne, hp⟩
      · rintro ⟨ch2, t2, he, _, hp⟩
        exact hp
    · rename_i hcond
      simp only [bne_iff_ne, ne_eq, not_not] at hcond
      have he : ch = c := (charInRanges_single c ch).1 hcond
      simp only [List.not_mem_nil, false_iff]
      rintro ⟨ch2, t2, hee, hne, hp⟩
      cases hee
      exact hne he

theorem runStar_negcls_consume (c : Char) :
    ∀ (fuel : Nat) (s : List Char) (p : Nat × Caps),
      p ∈ runStar (runRx (Rx.cls true [(c, c)])) fuel s →
      c ∉ s.take p.1 ∧ p.2 = [] := by
  intro fuel
  induction fuel with
  | zero =>
    intro s p hp
    simp only [runStar, List.mem_singleton] at hp
    subst hp
    simp
  | succ n ih =>
    intro s p hp
    simp only [runStar, List.mem_append, List.mem_flatMap, List.mem_singleton] at hp
    rcases hp with ⟨p1, hp1, hp2⟩ | hp
    · split at hp2
      · simp only [List.mem_map] at hp2
        obtain ⟨p2, hp2m, hp2e⟩ := hp2
        subst hp2e
        obtain ⟨ch, t, hs, hne, hp1e⟩ := (runRx_negcls_mem c s p1).1 hp1
        subst hs
        cases hp1e
        obtain ⟨ihc, ihe⟩ := ih _ p2 hp2m
        simp only [List.drop_succ_cons, List.drop_zero] at ihc
        refine ⟨?_, by simpa using ihe⟩
        rw [Nat.add_comm 1 p2.1]
        simp only [List.take_succ_cons, List.mem_cons]
        rintro (h | h)
        · exact hne h.symm
        · exact ihc h
      · simp at hp2
    · subst hp
      simp

theorem runStar_negcls_complete (c : Char) :
    ∀ (s : List Char) (fuel : Nat), s.length ≤ fuel → (∀ ch ∈ s, ch ≠ c) →
      (s.length, ([] : Caps)) ∈ runStar (runRx (Rx.cls true [(c, c)])) fuel s := by
  intro s
  induction s with
  | nil =>
    intro fuel _ _
    cases fuel <;> simp [runStar]
  | cons ch t ih =>
    intro fuel hf hch
    rcases fuel with _ | f
    · simp at hf
    simp only [runStar, List.mem_append, List.mem_flatMap, List.mem_singleton]
    left
    refine ⟨(1, []), ?_, ?_⟩
    · exact (runRx_negcls_mem c (ch :: t) (1, [])).2
        ⟨ch, t, rfl, hch ch (List.mem_cons_self ch t), rfl⟩
    · rw [if_pos (by norm_num)]
      simp only [List.mem_map, List.drop_succ_cons, List.drop_zero]
      refine ⟨(t.length, []), ih f (by simpa using hf)
        (fun x hx => hch x (List.mem_cons_of_mem _ hx)), by simp [Nat.add_comm]⟩

theorem catchAll_fragOK (c : Char) : FragOK c (Rx.plus (.cls true [(c, c)])) := by
  refine ⟨rfl, rfl, ?_⟩
  intro s p hp
  obtain ⟨pa, pb, hpa, hpb, hpe⟩ := runRx_seq_mem_elim hp
  obtain ⟨ch, t, hs, hne, hpae⟩ := (runRx_negcls_mem c s pa).1 hpa
  subst hs
  cases hpae
  rw [runRx_star_eq] at hpb
  obtain ⟨hc2, _⟩ := runStar_negcls_consume c _ _ pb hpb
  simp only [List.drop_succ_cons, List.drop_zero] at hc2
  subst hpe
  refine ⟨by omega, ?_⟩
  rw [Nat.add_comm 1 pb.1]
  simp only [List.take_succ_cons, List.mem_cons]
  rintro (h | h)
  · exact hne h.symm
  · exact hc2 h

theorem catchAll_complete (c : Char) (v : List Char) (hne : v ≠ [])
    (hch : ∀ ch ∈ v, ch ≠ c) :
    (v.length, ([] : Caps)) ∈ runRx (Rx.plus (.cls true [(c, c)])) v := by
  cases v with
  | nil => exact absurd rfl hne
  | cons ch t =>
    have h1 : (1, ([] : Caps)) ∈ runRx (Rx.cls true [(c, c)]) (ch :: t) :=
      (runRx_negcls_mem c (ch :: t) (1, [])).2
        ⟨ch, t, rfl, hch ch (List.mem_cons_self ch t), rfl⟩
    have h2 : (t.length, ([] : Caps)) ∈ runRx (.star (Rx.cls true [(c, c)]))
        ((ch :: t).drop 1) := by
      simp only [List.drop_succ_cons, List.drop_zero]
      rw [runRx_star_eq]
      exact runStar_negcls_complete c t t.length (le_refl _)
        (fun x hx => hch x (List.mem_cons_of_mem _ hx))
    have := runRx_seq_mem_intro _ _ (ch :: t) (1, []) (t.length, []) h1 h2
    simpa [Nat.add_comm] using this

theorem mem_insertLenDesc (x y : String) :
    ∀ l : List String, (y ∈ insertLenDesc x l ↔ y = x ∨ y ∈ l) := by
  intro l
  induction l with
  | nil => simp [insertLenDesc]
  | cons a rest ih =>
    simp only [insertLenDesc]
    split
    · simp
    · simp only [List.mem_cons, ih]
      tauto

theorem mem_sortLenDesc (y : String) :
    ∀ l : List String, (y ∈ sortLenDesc l ↔ y ∈ l) := by
  intro l
  induction l with
  | nil => simp [sortLenDesc]
  | cons a rest ih =>
    simp only [sortLenDesc, List.foldr_cons]
    show y ∈ insertLenDesc a (sortLenDesc rest) ↔ _
    rw [mem_insertLenDesc]
    simp [ih]

theorem runRx_str_mem (cs s : List Char) (p : Nat × Caps) :
    p ∈ runRx (.str cs) s ↔ cs.isPrefixOf s = true ∧ p = (cs.length, []) := by
  simp only [runRx]
  split
  · rename_i h
    simp [h]
  · rename_i h
    simp [h]

theorem runRx_altFold (s : List Char) :
    ∀ (es : List String) (acc : Rx) (p : Nat × Caps),
      (p ∈ runRx (es.foldl (fun acc o => .alt acc (.str o.data)) acc) s ↔
        (p ∈ runRx acc s ∨ ∃ o ∈ es, p ∈ runRx (.str o.data) s)) := by
  intro es
  induction es with
  | nil => simp
  | cons o es ih =>
    intro acc p
    simp only [List.foldl_cons]
    rw [ih]
    simp only [runRx, List.mem_append, List.mem_cons]
    constructor
    · rintro ((h | h) | ⟨o2, ho2, h⟩)
      · exact Or.inl h
      · exact Or.inr ⟨o, Or.inl rfl, h⟩
      · exact Or.inr ⟨o2, Or.inr ho2, h⟩
    · rintro (h | ⟨o2, (ho2 | ho2), h⟩)
      · exact Or.inl (Or.inl h)
      · subst ho2
        exact Or.inl (Or.inr h)
      · exact Or.inr ⟨o2, ho2, h⟩

theorem string_ne_empty_iff (w : String) : w ≠ "" ↔ w.data ≠ [] := by
  constructor
  · intro h he
    exact h (by cases w; simp_all)
  · intro h he
    subst he
    exact h rfl

theorem listRule_frag_mem (allowed : List String)
    (h : ∃ w ∈ allowed, w ≠ "") (s : List Char) (p : Nat × Caps) :
    (p ∈ runRx (ConcreteRule.toRegexPattern (.listRule allowed)) s ↔
      ∃ w ∈ allowed, w ≠ "" ∧ w.data.isPrefixOf s = true ∧ p = (w.data.length, [])) := by
  have hmemf : ∀ w : String, w ∈ (sortLenDesc allowed).filter (fun o => o ≠ "") ↔
      (w ∈ allowed ∧ w ≠ "") := by
    intro w
    rw [List.mem_filter, mem_sortLenDesc]
    simp
  simp only [ConcreteRule.toRegexPattern]
  split
  · rename_i hnil
    obtain ⟨w, hw, hwne⟩ := h
    have : w ∈ (sortLenDesc allowed).filter (fun o => o ≠ "") := (hmemf w).2 ⟨hw, hwne⟩
    rw [hnil] at this
    simp at this
  · rename_i e es hesc
    rw [runRx_altFold]
    constructor
    · rintro (hp | ⟨o, ho, hp⟩)
      · obtain ⟨hpre, hpe⟩ := (runRx_str_mem _ _ _).1 hp
        have he : e ∈ (sortLenDesc allowed).filter (fun o => o ≠ "") := by
          rw [hesc]; exact List.mem_cons_self e es
        obtain ⟨h1, h2⟩ := (hmemf e).1 he
        exact ⟨e, h1, h2, hpre, hpe⟩
      · obtain ⟨hpre, hpe⟩ := (runRx_str_mem _ _ _).1 hp
        have ho2 : o ∈ (sortLenDesc allowed).filter (fun o => o ≠ "") := by
          rw [hesc]; exact List.mem_cons_of_mem e ho
        obtain ⟨h1, h2⟩ := (hmemf o).1 ho2
        exact ⟨o, h1, h2, hpre, hpe⟩
    · rintro ⟨w, hw, hwne, hpre, hpe⟩
      have : w ∈ (sortLenDesc allowed).filter (fun o => o ≠ "") := (hmemf w).2 ⟨hw, hwne⟩
      rw [hesc] at this
      rcases List.mem_cons.1 this with hwe | hwe
      · subst hwe
        exact Or.inl ((runRx_str_mem _ _ _).2 ⟨hpre, hpe⟩)
      · exact Or.inr ⟨w, hwe, (runRx_str_mem _ _ _).2 ⟨hpre, hpe⟩⟩

theorem altFold_nlaFree : ∀ (es : List String) (acc : Rx), nlaFree acc = true →
    nlaFree (es.foldl (fun acc o => .alt acc (.str o.data)) acc) = true := by
  intro es
  induction es with
  | nil => intro acc h; exact h
  | cons o es ih =>
    intro acc h
    exact ih _ (by simp [nlaFree, h])

theorem altFold_groupFree : ∀ (es : List String) (acc : Rx), groupFree acc = true →
    groupFree (es.foldl (fun acc o => .alt acc (.str o.data)) acc) = true := by
  intro es
  induction es with
  | nil => intro acc h; exact h
  | cons o es ih =>
    intro acc h
    exact ih _ (by simp [groupFree, h])

theorem listRule_fragOK (c : Char) (allowed : List String)
    (hne : ∃ w ∈ allowed, w ≠ "") (hw : ∀ w ∈ allowed, c ∉ w.data) :
    FragOK c (ConcreteRule.toRegexPattern (.listRule allowed)) := by
  refine ⟨?_, ?_, ?_⟩
  · simp only [ConcreteRule.toRegexPattern]
    split
    · rfl
    · exact altFold_nlaFree _ _ rfl
  · simp only [ConcreteRule.toRegexPattern]
    split
    · rfl
    · exact altFold_groupFree _ _ rfl
  · intro s p hp
    obtain ⟨w, hwm, hwne, hpre, hpe⟩ := (listRule_frag_mem allowed hne s p).1 hp
    subst hpe
    have hdata : w.data ≠ [] := (string_ne_empty_iff w).1 hwne
    refine ⟨by cases hd : w.data with
      | nil => exact absurd hd hdata
      | cons a t => simp [hd], ?_⟩
    have htake : s.take w.data.length = w.data :=
      ((List.prefix_iff_eq_take.1 (List.isPrefixOf_iff_prefix.1 hpre))).symm
    rw [htake]
    exact hw w hwm

theorem string_mk_data (w : String) : String.mk w.data = w := rfl

theorem sep_length_one (M : Manager) (c : Char) (hsep : M.separator.data = [c]) :
    M.separator.length = 1 := by
  show M.separator.data.length = 1
  rw [hsep]
  rfl

theorem rawPattern_noRule (M : Manager) (c : Char) (hsep : M.separator.data = [c])
    (hn : M.tokens.length ≠ 1) (t : String) (hr : M.rules.lookup t = none) :
    rawPattern M t = Rx.plus (.cls true [(c, c)]) := by
  unfold rawPattern catchAllFor
  rw [hr, if_neg (by simpa using hn),
    if_neg (by rw [sep_length_one M c hsep]; omega), hsep]

theorem isValidToken_of_noRule (M : Manager) (c : Char) (hsep : M.separator.data = [c])
    (t : String) (hr : M.rules.lookup t = none) (v : List Char) (hv : c ∉ v) :
    isValidToken M t (String.mk v) = .ok true := by
  unfold isValidToken
  rw [hsep, if_neg (by
    show ¬ (isSubstring [c] v = true)
    rw [isSubstring_singleton]
    exact hv), hr]

theorem tokenOK_noRule (M : Manager) (c : Char) (t : String)
    (hsep : M.separator.data = [c]) (hn : M.tokens.length ≠ 1)
    (hr : M.rules.lookup t = none) : TokenOK M c t := by
  have hraw := rawPattern_noRule M c hsep hn t hr
  refine ⟨hraw ▸ catchAll_fragOK c, ?_, ?_⟩
  · intro v hvne hvc _
    rw [hraw]
    exact catchAll_complete c v hvne (fun ch hch he => hvc (he ▸ hch))
  · intro v hvc _
    exact isValidToken_of_noRule M c hsep t hr v hvc

theorem tokenOK_listRule (M : Manager) (c : Char) (t : String) (allowed : List String)
    (hsep : M.separator.data = [c])
    (hr : M.rules.lookup t = some (.listRule allowed))
    (hw : ∀ w ∈ allowed, w ≠ "" ∧ c ∉ w.data) (hal : allowed ≠ []) :
    TokenOK M c t := by
  have hraw : rawPattern M t = ConcreteRule.toRegexPattern (.listRule allowed) := by
    unfold rawPattern
    rw [hr]
  have hne : ∃ w ∈ allowed, w ≠ "" := by
    cases allowed with
    | nil => exact absurd rfl hal
    | cons w ws => exact ⟨w, List.mem_cons_self w ws, (hw w (List.mem_cons_self w ws)).1⟩
  refine ⟨hraw ▸ listRule_fragOK c allowed hne (fun w hwm => (hw w hwm).2), ?_, ?_⟩
  · intro v hvne hvc hvt
    rw [hraw]
    unfold isValidToken at hvt
    rw [hsep, if_neg (by
      show ¬ (isSubstring [c] (String.mk v).data = true)
      rw [show (String.mk v).data = v from rfl, isSubstring_singleton]
      exact hvc), hr] at hvt
    have hmem : String.mk v ∈ allowed := by
      simp only [ConcreteRule.validate, Except.ok.injEq] at hvt
      exact List.elem_iff.1 hvt
    refine (listRule_frag_mem allowed hne v (v.length, [])).2
      ⟨String.mk v, hmem, ?_, ?_, ?_⟩
    · rw [string_ne_empty_iff]
      exact hvne
    · exact List.isPrefixOf_iff_prefix.2 (List.prefix_refl v)
    · rfl
  · intro v hvc hfrag
    rw [hraw] at hfrag
    obtain ⟨w, hwm, hwne, hpre, hpe⟩ := (listRule_frag_mem allowed hne v _).1 hfrag
    have hlen : w.data.length = v.length := by
      have := congrArg Prod.fst hpe
      simpa using this.symm
    have hwv : w.data = v :=
      List.IsPrefix.eq_of_length (List.isPrefixOf_iff_prefix.1 hpre) hlen
    unfold isValidToken
    rw [hsep, if_neg (by
      show ¬ (isSubstring [c] (String.mk v).data = true)
      rw [show (String.mk v).data = v from rfl, isSubstring_singleton]
      exact hvc), hr]
    simp only [ConcreteRule.validate, Except.ok.injEq]
    rw [List.elem_iff]
    rw [← hwv, string_mk_data]
    exact hwm

theorem strictBody_sound (c : Char) :
    ∀ (gs : List Rx),
    (∀ g ∈ gs, ∀ (s : List Char) (p : Nat × Caps), p ∈ runRx g s →
      0 < p.1 ∧ c ∉ s.take p.1) → gs ≠ [] →
    ∀ (s : List Char) (p : Nat × Caps), p ∈ runRx (strictBody [c] gs) s →
      p.1 = s.length →
    ∃ vs : List (List Char), vs.length = gs.length ∧ s = joinChars [c] vs ∧
      ∀ v ∈ vs, v ≠ [] ∧ c ∉ v := by
  intro gs
  induction gs with
  | nil => intro _ h; exact absurd rfl h
  | cons g gs ih =>
    intro hOK _ s p hp hfull
    cases gs with
    | nil =>
      obtain ⟨hpos, hfree⟩ := hOK g (List.mem_cons_self g []) s p hp
      refine ⟨[s], rfl, rfl, ?_⟩
      intro v hv
      rcases List.mem_singleton.1 hv with rfl
      constructor
      · intro he
        rw [he] at hfull
        simp at hfull
        omega
      · rw [hfull, List.take_length] at hfree
        exact hfree
    | cons g2 gs2 =>
      obtain ⟨pa, pb, hpa, hpb, hpe⟩ := runRx_seq_mem_elim hp
      obtain ⟨pc, pd, hpc, hpd, hpe2⟩ := runRx_seq_mem_elim hpb
      obtain ⟨hcpre, hpce⟩ := (runRx_str_mem [c] _ pc).1 hpc
      obtain ⟨hapos, hafree⟩ := hOK g (List.mem_cons_self g _) s pa hpa
      have hale := runRx_consumed_le g s pa hpa
      obtain ⟨t, ht⟩ := List.isPrefixOf_iff_prefix.1 hcpre
      have hdnn : s.drop pa.1 ≠ [] := by
        intro he
        rw [he] at ht
        simp at ht
      have halt : pa.1 < s.length := by
        rcases Nat.lt_or_ge pa.1 s.length with h | h
        · exact h
        · exact absurd (List.drop_eq_nil_of_le h) hdnn
      have hpc1 : pc.1 = 1 := by rw [hpce]; rfl
      have htd : t = s.drop (pa.1 + 1) := by
        have h1 := congrArg (List.drop ([c] : List Char).length) ht
        rw [List.drop_left] at h1
        rw [h1]
        simp [List.drop_drop, Nat.add_comm]
      have hpd2 : pd ∈ runRx (strictBody [c] (g2 :: gs2)) (s.drop (pa.1 + 1)) := by
        rw [hpce] at hpd
        have ht2 : List.drop ([c] : List Char).length (List.drop pa.1 s) =
            List.drop (pa.1 + 1) s := by
          rw [← ht, List.drop_left]
          exact htd
        rw [ht2] at hpd
        exact hpd
      have hdle := runRx_consumed_le _ _ pd hpd2
      simp only [List.length_drop] at hdle
      have hsum : p.1 = pa.1 + (pc.1 + pd.1) := by rw [hpe, hpe2]
      have hpdfull : pd.1 = (s.drop (pa.1 + 1)).length := by
        simp only [List.length_drop]
        omega
      obtain ⟨vs, hlen, hjoin, hvs⟩ := ih
        (fun g3 h3 => hOK g3 (List.mem_cons_of_mem _ h3)) (by simp) _ pd hpd2 hpdfull
      have hvsne : vs ≠ [] := by
        intro he
        rw [he] at hlen
        simp at hlen
      refine ⟨s.take pa.1 :: vs, by simp [hlen], ?_, ?_⟩
      · rcases vs with _ | ⟨w, vs2⟩
        · exact absurd rfl hvsne
        · show s = s.take pa.1 ++ [c] ++ joinChars [c] (w :: vs2)
          rw [← hjoin, ← htd, List.append_assoc, ht]
          exact (List.take_append_drop pa.1 s).symm
      · intro v hv
        rcases List.mem_cons.1 hv with rfl | hv
        · refine ⟨?_, hafree⟩
          intro he
          have := congrArg List.length he
          simp only [List.length_take, List.length_nil] at this
          omega
        · exact hvs v hv

theorem strictBody_complete (c : Char) :
    ∀ (gps : List (Rx × List Char)), gps ≠ [] →
    (∀ gp ∈ gps, nlaFree gp.1 = true ∧
      (gp.2.length, ([] : Caps)) ∈ runRx gp.1 gp.2) →
    ((joinChars [c] (gps.map Prod.snd)).length, ([] : Caps)) ∈
      runRx (strictBody [c] (gps.map Prod.fst)) (joinChars [c] (gps.map Prod.snd)) := by
  intro gps
  induction gps with
  | nil => intro h; exact absurd rfl h
  | cons gp gps ih =>
    intro _ h
    cases gps with
    | nil => simpa using (h gp (List.mem_cons_self gp [])).2
    | cons gp2 gps2 =>
      have hjc : joinChars [c] ((gp :: gp2 :: gps2).map Prod.snd) =
          gp.2 ++ [c] ++ joinChars [c] ((gp2 :: gps2).map Prod.snd) := rfl
      have h1 : (gp.2.length, ([] : Caps)) ∈
          runRx gp.1 (gp.2 ++ ([c] ++ joinChars [c] ((gp2 :: gps2).map Prod.snd))) :=
        runRx_extend _ gp.1 (h gp (List.mem_cons_self gp _)).1 gp.2 _
          (h gp (List.mem_cons_self gp _)).2
      have h3 := ih (by simp) (fun gp3 h3 => h gp3 (List.mem_cons_of_mem _ h3))
      have h2 : (1, ([] : Caps)) ∈ runRx (.str [c])
          ((gp.2 ++ ([c] ++ joinChars [c] ((gp2 :: gps2).map Prod.snd))).drop
            gp.2.length) := by
        rw [List.drop_left]
        exact (runRx_str_mem [c] _ _).2 ⟨by simp [List.isPrefixOf], rfl⟩
      have h4 : ((joinChars [c] ((gp2 :: gps2).map Prod.snd)).length, ([] : Caps)) ∈
          runRx (strictBody [c] ((gp2 :: gps2).map Prod.fst))
            (((gp.2 ++ ([c] ++ joinChars [c] ((gp2 :: gps2).map Prod.snd))).drop
              gp.2.length).drop 1) := by
        rw [List.drop_left]
        simpa using h3
      have hcomb := runRx_seq_mem_intro (.str [c]) _ _ (1, []) _ h2 h4
      have hfin := runRx_seq_mem_intro gp.1 _ _ (gp.2.length, []) _ h1 hcomb
      show ((joinChars [c] ((gp :: gp2 :: gps2).map Prod.snd)).length, ([] : Caps)) ∈
        runRx (.seq gp.1 (.seq (.str [c]) (strictBody [c] ((gp2 :: gps2).map Prod.fst))))
          (joinChars [c] ((gp :: gp2 :: gps2).map Prod.snd))
      rw [hjc]
      have hlen : (gp.2 ++ [c] ++ joinChars [c] ((gp2 :: gps2).map Prod.snd)).length =
          gp.2.length + (1 + (joinChars [c] ((gp2 :: gps2).map Prod.snd)).length) := by
        simp
        omega
      rw [hlen]
      simpa [List.append_assoc] using hfin

theorem consume_group (c : Char) (n : String) (r : Rx)
    (h : ∀ (s : List Char) (p : Nat × Caps), p ∈ runRx r s → 0 < p.1 ∧ c ∉ s.take p.1) :
    ∀ (s : List Char) (p : Nat × Caps), p ∈ runRx (.group n r) s →
      0 < p.1 ∧ c ∉ s.take p.1 := by
  intro s p hp
  simp only [runRx, List.mem_map] at hp
  obtain ⟨q, hq, rfl⟩ := hp
  exact h s q hq

theorem consume_tokenPattern (M : Manager) (c : Char) (cg : Bool) (t : String)
    (h : FragOK c (rawPattern M t)) :
    ∀ (s : List Char) (p : Nat × Caps), p ∈ runRx (tokenPattern M cg t) s →
      0 < p.1 ∧ c ∉ s.take p.1 := by
  unfold tokenPattern
  cases cg with
  | false => simpa using h.2.2
  | true => simpa using consume_group c t (rawPattern M t) h.2.2

theorem isSubstring_notMem (c : Char) (pat : List Char) :
    ∀ l : List Char, c ∉ l → isSubstring (c :: pat) l = false := by
  intro l
  induction l with
  | nil => intro _; simp [isSubstring, List.isPrefixOf]
  | cons x rest ih =>
    intro h
    have hx : c ≠ x := fun he => h (he ▸ List.mem_cons_self x rest)
    have hr : c ∉ rest := fun he => h (List.mem_cons_of_mem x he)
    simp [isSubstring, List.isPrefixOf, hx, ih hr]

theorem isSubstring_cc_glue (c : Char) :
    ∀ (v rest : List Char), c ∉ v → rest.head? ≠ some c →
    isSubstring [c, c] rest = false →
    isSubstring [c, c] (v ++ [c] ++ rest) = false := by
  intro v
  induction v with
  | nil =>
    intro rest _ hhd hsub
    show isSubstring [c, c] (c :: rest) = false
    cases rest with
    | nil => simp [isSubstring, List.isPrefixOf]
    | cons y rest2 =>
      have hy : (c == y) = false := by
        rw [beq_eq_false_iff_ne]
        intro he
        exact hhd (by rw [he]; rfl)
      have h1 : isSubstring [c, c] (c :: y :: rest2) =
          ([c, c].isPrefixOf (c :: y :: rest2) || isSubstring [c, c] (y :: rest2)) := rfl
      rw [h1, hsub]
      simp [List.isPrefixOf, hy]
  | cons x v2 ih =>
    intro rest h hhd hsub
    have hx : c ≠ x := fun he => h (he ▸ List.mem_cons_self x v2)
    have hv : c ∉ v2 := fun he => h (List.mem_cons_of_mem x he)
    show isSubstring [c, c] (x :: (v2 ++ [c] ++ rest)) = false
    have h1 : isSubstring [c, c] (x :: (v2 ++ [c] ++ rest)) =
        ([c, c].isPrefixOf (x :: (v2 ++ [c] ++ rest)) ||
          isSubstring [c, c] (v2 ++ [c] ++ rest)) := rfl
    rw [h1, ih rest hv hhd hsub]
    have hx2 : (c == x) = false := beq_eq_false_iff_ne.2 hx
    simp [List.isPrefixOf, hx2]

theorem getLast?_ne_of_notMem (c : Char) :
    ∀ l : List Char, c ∉ l → l.getLast? ≠ some c := by
  intro l
  induction l with
  | nil => intro _ h; exact Option.noConfusion h
  | cons x rest ih =>
    intro h
    cases rest with
    | nil =>
      intro he
      have hxc : x = c := by simpa using he
      exact h (hxc ▸ List.mem_cons_self x [])
    | cons y rest2 =>
      have : (x :: y :: rest2).getLast? = (y :: rest2).getLast? := rfl
      rw [this]
      exact ih fun he => h (List.mem_cons_of_mem x he)

theorem joinChars_ne_nil (c : Char) :
    ∀ vs : List (List Char), vs ≠ [] → (∀ v ∈ vs, v ≠ []) →
      joinChars [c] vs ≠ [] := by
  intro vs hne h
  cases vs with
  | nil => exact absurd rfl hne
  | cons v vs2 =>
    cases vs2 with
    | nil => exact h v (List.mem_cons_self v [])
    | cons w vs3 =>
      show v ++ [c] ++ joinChars [c] (w :: vs3) ≠ []
      simp

theorem joinChars_parts_safe (c : Char) :
    ∀ vs : List (List Char), vs ≠ [] → (∀ v ∈ vs, v ≠ [] ∧ c ∉ v) →
    isSubstring [c, c] (joinChars [c] vs) = false ∧
    (joinChars [c] vs).head? ≠ some c ∧
    (joinChars [c] vs).getLast? ≠ some c := by
  intro vs
  induction vs with
  | nil => intro h; exact absurd rfl h
  | cons v vs2 ih =>
    intro _ h
    obtain ⟨hvne, hvc⟩ := h v (List.mem_cons_self v vs2)
    cases vs2 with
    | nil =>
      refine ⟨isSubstring_notMem c [c] v hvc, ?_, getLast?_ne_of_notMem c v hvc⟩
      cases v with
      | nil => exact absurd rfl hvne
      | cons x v3 =>
        intro he
        exact absurd ((Option.some_inj.1 he).symm ▸ List.mem_cons_self x v3) hvc
    | cons w vs3 =>
      obtain ⟨hsub, hhd, hlast⟩ := ih (by simp)
        (fun u hu => h u (List.mem_cons_of_mem v hu))
      have hj : joinChars [c] (v :: w :: vs3) = v ++ [c] ++ joinChars [c] (w :: vs3) := rfl
      refine ⟨?_, ?_, ?_⟩
      · rw [hj]
        exact isSubstring_cc_glue c v _ hvc hhd hsub
      · rw [hj]
        cases v with
        | nil => exact absurd rfl hvne
        | cons x v3 =>
          intro he
          exact absurd ((Option.some_inj.1 he).symm ▸ List.mem_cons_self x v3) hvc
      · rw [hj, List.append_assoc,
          List.getLast?_append_of_ne_nil v (by simp),
          List.getLast?_append_of_ne_nil [c]
            (joinChars_ne_nil c _ (by simp) (fun u hu => (h u (List.mem_cons_of_mem v hu)).1))]
        exact hlast

/-! ### Claim C4 -/

/-- C4 (corrected): provided every token fragment is separator-safe
(consuming parses are non-empty and separator-free, as the catch-all and
non-empty literal list rules are), a name fully matched by the strict
pattern never contains two consecutive separators and never starts or
ends with the separator; a token rule whose pattern matches the empty
string breaks the guarantee (`claim4_counterexample`). -/
theorem claim4_thm (M : Manager) (c : Char) (cg fm : Bool)
    (hsep : M.separator.data = [c])
    (hfrag : ∀ t ∈ M.tokens, FragOK c (rawPattern M t))
    (s : List Char)
    (hm : reFullMatch (computeMatchingRegex M (cg, fm, true)).2 s = true) :
    isSubstring [c, c] s = false ∧ s.head? ≠ some c ∧ s.getLast? ≠ some c := by
  by_cases hMt : M.tokens = []
  · rw [computeEmpty M _ hMt] at hm
    simp only [reFullMatch, runRx, List.any_cons, List.any_nil, Bool.or_false] at hm
    have h0 : 0 = s.length := by simpa using hm
    have hs : s = [] := List.eq_nil_of_length_eq_zero h0.symm
    subst hs
    refine ⟨by simp [isSubstring, List.isPrefixOf], by simp, by simp⟩
  · rw [computeStrict M cg fm hMt, hsep] at hm
    simp only [reFullMatch, List.any_eq_true] at hm
    obtain ⟨p, hp, hpl⟩ := hm
    have hfull : p.1 = s.length := by simpa using hpl
    obtain ⟨vs, hlen, hjoin, hvs⟩ := strictBody_sound c (M.tokens.map (tokenPattern M cg))
      (fun g hg => by
        obtain ⟨t, ht, hgt⟩ := List.mem_map.1 hg
        exact hgt ▸ consume_tokenPattern M c cg t (hfrag t ht))
      (by
        intro h
        apply hMt
        cases hMts : M.tokens with
        | nil => rfl
        | cons a l => rw [hMts] at h; exact List.noConfusion h)
      s p hp hfull
    rw [hjoin]
    refine joinChars_parts_safe c vs ?_ hvs
    intro hv
    rw [hv] at hlen
    simp only [List.length_nil, List.length_map] at hlen
    exact hMt (List.eq_nil_of_length_eq_zero hlen.symm)

/-- C4, counterexample to the unqualified claim: with two declared
tokens (a non-trivial token count) whose rules carry the nullable
pattern `x?`, the strict full-match regex accepts `"_"`, which both
starts and ends with the separator. -/
theorem claim4_counterexample :
    reFullMatch (computeMatchingRegex nullableM (false, true, true)).2 ['_'] = true ∧
    (['_'] : List Char).head? = some '_' ∧
    (['_'] : List Char).getLast? = some '_' ∧
    nullableM.tokens.length = 2 := by
  refine ⟨by decide, rfl, rfl, rfl⟩

theorem claim4_witness :
    isSubstring ['_', '_'] ['x', '_', 'y'] = false ∧
    (['x', '_', 'y'] : List Char).head? ≠ some '_' ∧
    (['x', '_', 'y'] : List Char).getLast? ≠ some '_' :=
  claim4_thm twoTok '_' false true rfl
    (fun t ht => (tokenOK_noRule twoTok '_' t rfl (by decide) rfl).1)
    ['x', '_', 'y'] (by decide)

/-! ### Lenient-regex capture lemmas (claims C1, C3) -/

theorem runRx_group_mem (n : String) (r : Rx) (s : List Char) (p : Nat × Caps) :
    p ∈ runRx (.group n r) s ↔
      ∃ q ∈ runRx r s, p = (q.1, q.2 ++ [(n, s.take q.1)]) := by
  simp only [runRx, List.mem_map]
  constructor
  · rintro ⟨q, hq, rfl⟩; exact ⟨q, hq, rfl⟩
  · rintro ⟨q, hq, rfl⟩; exact ⟨q, hq, rfl⟩

theorem runRx_opt_mem (r : Rx) (s : List Char) (p : Nat × Caps) :
    p ∈ runRx (.opt r) s ↔ p ∈ runRx r s ∨ p = (0, []) := by
  simp [runRx]

theorem buildSuffix_eq (sep : List Char) (g : Rx) (gs : List Rx) :
    buildSuffix sep (g :: gs) = .opt (.seq (.str sep) (lenientBody sep (g :: gs))) := by
  cases gs <;> rfl

theorem zip_append_left {α β : Type _} :
    ∀ (l1 : List α) (r : List β), l1.length = r.length →
      ∀ l2 : List α, (l1 ++ l2).zip r = l1.zip r := by
  intro l1
  induction l1 with
  | nil =>
    intro r h l2
    have : r = [] := List.eq_nil_of_length_eq_zero h.symm
    subst this
    simp
  | cons a l1 ih =>
    intro r h l2
    cases r with
    | nil => simp at h
    | cons b r =>
      simp only [List.length_cons, Nat.succ_inj] at h
      simp only [List.cons_append, List.zip_cons_cons, ih r h l2]

theorem append_char_inj (c : Char) :
    ∀ (a b x y : List Char), c ∉ a → c ∉ b → a ++ c :: x = b ++ c :: y →
      a = b ∧ x = y := by
  intro a
  induction a with
  | nil =>
    intro b x y _ hb h
    cases b with
    | nil => simpa using h
    | cons d b2 =>
      simp only [List.nil_append, List.cons_append, List.cons.injEq] at h
      exact absurd (h.1 ▸ List.mem_cons_self d b2) hb
  | cons d a2 ih =>
    intro b x y ha hb h
    cases b with
    | nil =>
      simp only [List.cons_append, List.nil_append, List.cons.injEq] at h
      exact absurd (h.1.symm ▸ List.mem_cons_self d a2) ha
    | cons e b2 =>
      simp only [List.cons_append, List.cons.injEq] at h
      obtain ⟨rfl, h2⟩ := h
      obtain ⟨h3, h4⟩ := ih b2 x y (fun hm => ha (List.mem_cons_of_mem d hm))
        (fun hm => hb (List.mem_cons_of_mem d hm)) h2
      exact ⟨by rw [h3], h4⟩

theorem joinChars_inj (c : Char) :
    ∀ (vs ws : List (List Char)), vs ≠ [] → ws ≠ [] →
      (∀ v ∈ vs, c ∉ v) → (∀ w ∈ ws, c ∉ w) →
      joinChars [c] vs = joinChars [c] ws → vs = ws := by
  intro vs
  induction vs with
  | nil => intro ws h; exact absurd rfl h
  | cons v vs2 ih =>
    intro ws _ hws hv hw h
    cases ws with
    | nil => exact absurd rfl hws
    | cons w ws2 =>
      cases vs2 with
      | nil =>
        cases ws2 with
        | nil => rw [show joinChars [c] [v] = v from rfl,
            show joinChars [c] [w] = w from rfl] at h; rw [h]
        | cons w2 ws3 =>
          rw [show joinChars [c] [v] = v from rfl,
            show joinChars [c] (w :: w2 :: ws3) = w ++ [c] ++ joinChars [c] (w2 :: ws3)
              from rfl] at h
          have hc : c ∈ v := by
            rw [h, List.append_assoc]
            exact List.mem_append_right w (List.mem_append_left _ (List.mem_singleton.2 rfl))
          exact absurd hc (hv v (List.mem_cons_self v []))
      | cons v2 vs3 =>
        cases ws2 with
        | nil =>
          rw [show joinChars [c] [w] = w from rfl,
            show joinChars [c] (v :: v2 :: vs3) = v ++ [c] ++ joinChars [c] (v2 :: vs3)
              from rfl] at h
          have hc : c ∈ w := by
            rw [← h, List.append_assoc]
            exact List.mem_append_right v (List.mem_append_left _ (List.mem_singleton.2 rfl))
          exact absurd hc (hw w (List.mem_cons_self w []))
        | cons w2 ws3 =>
          rw [show joinChars [c] (v :: v2 :: vs3) = v ++ [c] ++ joinChars [c] (v2 :: vs3)
              from rfl,
            show joinChars [c] (w :: w2 :: ws3) = w ++ [c] ++ joinChars [c] (w2 :: ws3)
              from rfl, List.append_assoc, List.append_assoc] at h
          obtain ⟨h1, h2⟩ := append_char_inj c v w _ _
            (hv v (List.mem_cons_self v _)) (hw w (List.mem_cons_self w _))
            (by simpa using h)
          have h3 := ih (w2 :: ws3) (by simp) (by simp)
            (fun u hu => hv u (List.mem_cons_of_mem v hu))
            (fun u hu => hw u (List.mem_cons_of_mem w hu)) h2
          rw [h1, h3]

theorem fullParseCaps_eq (r : Rx) (s : List Char) (C : Caps)
    (hex : (s.length, C) ∈ runRx r s)
    (huniq : ∀ p ∈ runRx r s, p.1 = s.length → p.2 = C) :
    fullParseCaps r s = some C := by
  unfold fullParseCaps
  cases hl : (runRx r s).filter (fun p => p.1 == s.length) with
  | nil =>
    have : (s.length, C) ∈ (runRx r s).filter (fun p => p.1 == s.length) :=
      List.mem_filter.2 ⟨hex, by simp⟩
    rw [hl] at this
    exact absurd this (List.not_mem_nil _)
  | cons a l =>
    have ha : a ∈ (runRx r s).filter (fun p => p.1 == s.length) := by
      rw [hl]; exact List.mem_cons_self a l
    obtain ⟨ham, hab⟩ := List.mem_filter.1 ha
    simp only [List.head?_cons, Option.map_some']
    rw [huniq a ham (by simpa using hab)]

theorem lenientBody_sound (c : Char) :
    ∀ (nfs : List (String × Rx)), nfs ≠ [] →
    (∀ nf ∈ nfs, groupFree nf.2 = true ∧
      ∀ (s : List Char) (p : Nat × Caps), p ∈ runRx nf.2 s →
        0 < p.1 ∧ c ∉ s.take p.1) →
    ∀ (s : List Char) (p : Nat × Caps),
      p ∈ runRx (lenientBody [c] (nfs.map fun nf => Rx.group nf.1 nf.2)) s →
      p.1 = s.length →
    ∃ vs : List (List Char), vs ≠ [] ∧ vs.length ≤ nfs.length ∧
      s = joinChars [c] vs ∧ (∀ v ∈ vs, v ≠ [] ∧ c ∉ v) ∧
      p.2 = (nfs.zip vs).map fun pr => (pr.1.1, pr.2) := by
  intro nfs
  induction nfs with
  | nil => intro h; exact absurd rfl h
  | cons nf nfs2 ih =>
    intro _ hOK s p hp hfull
    cases nfs2 with
    | nil =>
      have hp2 : p ∈ runRx (.group nf.1 nf.2) s := hp
      obtain ⟨q, hq, rfl⟩ := (runRx_group_mem _ _ _ _).1 hp2
      obtain ⟨hqpos, hqfree⟩ := (hOK nf (List.mem_cons_self _ _)).2 s q hq
      have hcap : q.2 = [] := groupFree_caps nf.2 (hOK nf (List.mem_cons_self _ _)).1 s q hq
      have hq1 : q.1 = s.length := hfull
      refine ⟨[s], by simp, by simp, rfl, ?_, ?_⟩
      · intro v hv
        rcases List.mem_singleton.1 hv with rfl
        refine ⟨?_, by rw [hq1, List.take_length] at hqfree; exact hqfree⟩
        intro he
        rw [he] at hq1
        simp at hq1
        omega
      · show q.2 ++ [(nf.1, s.take q.1)] = _
        rw [hcap, hq1, List.take_length]
        rfl
    | cons nf2 nfs3 =>
      have hp2 : p ∈ runRx (.seq (Rx.group nf.1 nf.2)
          (buildSuffix [c] ((nf2 :: nfs3).map fun x => Rx.group x.1 x.2))) s := hp
      obtain ⟨pa, pb, hpa, hpb, hpe⟩ := runRx_seq_mem_elim hp2
      obtain ⟨qa, hqa, hqae⟩ := (runRx_group_mem _ _ _ _).1 hpa
      obtain ⟨hqpos, hqfree⟩ := (hOK nf (List.mem_cons_self _ _)).2 s qa hqa
      have hcap : qa.2 = [] := groupFree_caps nf.2 (hOK nf (List.mem_cons_self _ _)).1 s qa hqa
      have hale := runRx_consumed_le nf.2 s qa hqa
      have hpa1 : pa.1 = qa.1 := by rw [hqae]
      have hpa2 : pa.2 = [(nf.1, s.take qa.1)] := by rw [hqae, hcap]; rfl
      rw [show ((nf2 :: nfs3).map fun x => Rx.group x.1 x.2) =
            (Rx.group nf2.1 nf2.2) :: (nfs3.map fun x => Rx.group x.1 x.2) from rfl,
          buildSuffix_eq] at hpb
      rcases (runRx_opt_mem _ _ _).1 hpb with hpb2 | hpb0
      · obtain ⟨pc, pd, hpc, hpd, hpe2⟩ := runRx_seq_mem_elim hpb2
        obtain ⟨hcpre, hpce⟩ := (runRx_str_mem [c] _ pc).1 hpc
        obtain ⟨t, ht⟩ := List.isPrefixOf_iff_prefix.1 hcpre
        have hdnn : s.drop pa.1 ≠ [] := by
          intro he
          rw [he] at ht
          simp at ht
        have halt : pa.1 < s.length := by
          rcases Nat.lt_or_ge pa.1 s.length with h | h
          · exact h
          · exact absurd (List.drop_eq_nil_of_le h) hdnn
        have hpc1 : pc.1 = 1 := by rw [hpce]; rfl
        have htd : t = s.drop (pa.1 + 1) := by
          have h1 := congrArg (List.drop ([c] : List Char).length) ht
          rw [List.drop_left] at h1
          rw [h1]
          simp [List.drop_drop, Nat.add_comm]
        have hpd2 : pd ∈ runRx (lenientBody [c]
            ((nf2 :: nfs3).map fun x => Rx.group x.1 x.2)) (s.drop (pa.1 + 1)) := by
          rw [hpce] at hpd
          have ht2 : List.drop ([c] : List Char).length (List.drop pa.1 s) =
              List.drop (pa.1 + 1) s := by
            rw [← ht, List.drop_left]
            exact htd
          rw [ht2] at hpd
          exact hpd
        have hdle := runRx_consumed_le _ _ pd hpd2
        simp only [List.length_drop] at hdle
        have hsum : p.1 = pa.1 + (pc.1 + pd.1) := by rw [hpe, hpe2]
        have hpdfull : pd.1 = (s.drop (pa.1 + 1)).length := by
          simp only [List.length_drop]
          omega
        obtain ⟨vs2, hvs2ne, hvs2len, hjoin, hvs2ok, hcaps⟩ := ih
          (by simp) (fun x hx => hOK x (List.mem_cons_of_mem _ hx)) _ pd hpd2 hpdfull
        refine ⟨s.take pa.1 :: vs2, by simp, by simpa using hvs2len, ?_, ?_, ?_⟩
        · rcases vs2 with _ | ⟨w, ws⟩
          · exact absurd rfl hvs2ne
          · show s = s.take pa.1 ++ [c] ++ joinChars [c] (w :: ws)
            rw [← hjoin, ← htd, List.append_assoc, ht]
            exact (List.take_append_drop pa.1 s).symm
        · intro v hv
          rcases List.mem_cons.1 hv with rfl | hv
          · refine ⟨?_, by rw [hpa1] at *; exact hqfree⟩
            intro he
            have := congrArg List.length he
            simp only [List.length_take, List.length_nil] at this
            omega
          · exact hvs2ok v hv
        · have hpbcaps : pb.2 = pd.2 := by
            rw [hpe2, hpce]
            rfl
          rw [hpe]
          show pa.2 ++ pb.2 = _
          rw [hpa2, hpbcaps, hcaps, hpa1]
          rfl
      · have hpb1 : pb.1 = 0 := by rw [hpb0]
        have hq1 : qa.1 = s.length := by
          rw [hpe] at hfull
          simp only at hfull
          omega
        refine ⟨[s], by simp, by simp, rfl, ?_, ?_⟩
        · intro v hv
          rcases List.mem_singleton.1 hv with rfl
          refine ⟨?_, by rw [hq1, List.take_length] at hqfree; exact hqfree⟩
          intro he
          rw [he] at hq1
          simp at hq1
          omega
        · rw [hpe]
          show pa.2 ++ pb.2 = _
          rw [hpa2, hpb0, hq1, List.take_length]
          rfl

theorem lenientBody_complete (c : Char) :
    ∀ (ps : List ((String × Rx) × List Char)) (qs : List (String × Rx)), ps ≠ [] →
    (∀ pr ∈ ps, nlaFree pr.1.2 = true ∧
      (pr.2.length, ([] : Caps)) ∈ runRx pr.1.2 pr.2) →
    ((joinChars [c] (ps.map Prod.snd)).length,
      (ps.map fun pr => (pr.1.1, pr.2) : Caps)) ∈
      runRx (lenientBody [c] ((ps.map Prod.fst ++ qs).map fun nf => Rx.group nf.1 nf.2))
        (joinChars [c] (ps.map Prod.snd)) := by
  intro ps
  induction ps with
  | nil => intro qs h; exact absurd rfl h
  | cons pr ps2 ih =>
    intro qs _ h
    cases ps2 with
    | nil =>
      have hfrag := (h pr (List.mem_cons_self pr [])).2
      have hgrp : ((pr.2.length, ([] : Caps)).1,
          (pr.2.length, ([] : Caps)).2 ++ [(pr.1.1, pr.2.take pr.2.length)]) ∈
          runRx (.group pr.1.1 pr.1.2) pr.2 := by
        rw [runRx_group_mem]
        exact ⟨(pr.2.length, []), hfrag, rfl⟩
      rw [List.take_length] at hgrp
      cases qs with
      | nil => simpa using hgrp
      | cons q qs2 =>
        have hpb : ((0, []) : Nat × Caps) ∈ runRx
            (buildSuffix [c] ((q :: qs2).map fun nf => Rx.group nf.1 nf.2))
            (List.drop pr.2.length pr.2) := by
          rw [show ((q :: qs2).map fun nf => Rx.group nf.1 nf.2) =
              (Rx.group q.1 q.2) :: (qs2.map fun nf => Rx.group nf.1 nf.2) from rfl,
            buildSuffix_eq, runRx_opt_mem]
          exact Or.inr rfl
        have hcomb := runRx_seq_mem_intro (.group pr.1.1 pr.1.2) _ pr.2
          (pr.2.length, [(pr.1.1, pr.2)]) (0, []) hgrp hpb
        simpa using hcomb
    | cons pr2 ps3 =>
      have hnla := (h pr (List.mem_cons_self pr _)).1
      have hfrag := (h pr (List.mem_cons_self pr _)).2
      have hJ := ih qs (by simp) (fun x hx => h x (List.mem_cons_of_mem pr hx))
      have hext : (pr.2.length, ([] : Caps)) ∈ runRx pr.1.2
          (pr.2 ++ ([c] ++ joinChars [c] ((pr2 :: ps3).map Prod.snd))) :=
        runRx_extend _ pr.1.2 hnla pr.2 _ hfrag
      have hgrp : (pr.2.length, ([] : Caps) ++ [(pr.1.1,
          (pr.2 ++ ([c] ++ joinChars [c] ((pr2 :: ps3).map Prod.snd))).take pr.2.length)]) ∈
          runRx (.group pr.1.1 pr.1.2)
            (pr.2 ++ ([c] ++ joinChars [c] ((pr2 :: ps3).map Prod.snd))) := by
        rw [runRx_group_mem]
        exact ⟨(pr.2.length, []), hext, rfl⟩
      rw [List.take_left] at hgrp
      have hstr : ((1, []) : Nat × Caps) ∈ runRx (.str [c])
          ((pr.2 ++ ([c] ++ joinChars [c] ((pr2 :: ps3).map Prod.snd))).drop
            pr.2.length) := by
        rw [List.drop_left, runRx_str_mem]
        exact ⟨by simp [List.isPrefixOf], rfl⟩
      have hlen : ((pr2 :: ps3).map Prod.snd ≠ ([] : List (List Char))) := by simp
      have hpd : ((joinChars [c] ((pr2 :: ps3).map Prod.snd)).length,
          ((pr2 :: ps3).map fun x => (x.1.1, x.2) : Caps)) ∈
          runRx (lenientBody [c] (((pr2 :: ps3).map Prod.fst ++ qs).map
            fun nf => Rx.group nf.1 nf.2))
          (((pr.2 ++ ([c] ++ joinChars [c] ((pr2 :: ps3).map Prod.snd))).drop
            pr.2.length).drop 1) := by
        rw [List.drop_left]
        simpa using hJ
      have hsuf := runRx_seq_mem_intro (.str [c]) _ _ (1, [])
        _ hstr hpd
      have hpb : ((1 + (joinChars [c] ((pr2 :: ps3).map Prod.snd)).length,
          ((pr2 :: ps3).map fun x => (x.1.1, x.2) : Caps)) : Nat × Caps) ∈
          runRx (buildSuffix [c] (((pr2 :: ps3).map Prod.fst ++ qs).map
            fun nf => Rx.group nf.1 nf.2))
          ((pr.2 ++ ([c] ++ joinChars [c] ((pr2 :: ps3).map Prod.snd))).drop
            pr.2.length) := by
        have hshape : (((pr2 :: ps3).map Prod.fst ++ qs).map
            fun nf => Rx.group nf.1 nf.2) =
            (Rx.group pr2.1.1 pr2.1.2) ::
              ((ps3.map Prod.fst ++ qs).map fun nf => Rx.group nf.1 nf.2) := rfl
        rw [hshape, buildSuffix_eq, runRx_opt_mem]
        refine Or.inl ?_
        rw [← hshape]
        simpa using hsuf
      have hcomb := runRx_seq_mem_intro (.group pr.1.1 pr.1.2) _ _
        (pr.2.length, [(pr.1.1, pr.2)]) _ hgrp hpb
      have hjc : joinChars [c] ((pr :: pr2 :: ps3).map Prod.snd) =
          pr.2 ++ ([c] ++ joinChars [c] ((pr2 :: ps3).map Prod.snd)) := by
        show pr.2 ++ [c] ++ _ = _
        rw [List.append_assoc]
        rfl
      have hlen2 : (joinChars [c] ((pr :: pr2 :: ps3).map Prod.snd)).length =
          pr.2.length + (1 + (joinChars [c] ((pr2 :: ps3).map Prod.snd)).length) := by
        rw [hjc]
        simp
        omega
      rw [show ((pr :: pr2 :: ps3).map Prod.fst ++ qs).map
            (fun nf => Rx.group nf.1 nf.2) =
          (Rx.group pr.1.1 pr.1.2) ::
            (((pr2 :: ps3).map Prod.fst ++ qs).map fun nf => Rx.group nf.1 nf.2) from rfl]
      rw [hlen2, hjc]
      have hshape2 : lenientBody [c] ((Rx.group pr.1.1 pr.1.2) ::
            (((pr2 :: ps3).map Prod.fst ++ qs).map fun nf => Rx.group nf.1 nf.2)) =
          .seq (Rx.group pr.1.1 pr.1.2)
            (buildSuffix [c] (((pr2 :: ps3).map Prod.fst ++ qs).map
              fun nf => Rx.group nf.1 nf.2)) := rfl
      rw [hshape2]
      simpa using hcomb

theorem dictSet_map_update (f : String → String) (t0 : String) (v : String) :
    ∀ ts : List String, ts.Nodup → t0 ∈ ts →
      dictSet (ts.map fun t => (t, f t)) t0 v =
        ts.map fun t => (t, if t = t0 then v else f t) := by
  intro ts
  induction ts with
  | nil => intro _ h; exact absurd h (List.not_mem_nil t0)
  | cons a ts2 ih =>
    intro hnd hmem
    have hna : a ∉ ts2 := (List.nodup_cons.1 hnd).1
    show dictSet ((a, f a) :: ts2.map fun t => (t, f t)) t0 v = _
    simp only [dictSet]
    by_cases hat : a = t0
    · rw [if_pos hat]
      simp only [List.map_cons, if_pos hat]
      congr 1
      apply List.map_eq_map_iff.mpr
      intro t ht
      have htne : t ≠ t0 := by
        intro he
        exact hna (by rw [hat, ← he]; exact ht)
      rw [if_neg htne]
    · rw [if_neg hat]
      have hmem2 : t0 ∈ ts2 := by
        rcases List.mem_cons.1 hmem with he | h2
        · exact absurd he.symm hat
        · exact h2
      rw [ih (List.nodup_cons.1 hnd).2 hmem2]
      simp only [List.map_cons, if_neg hat]

theorem foldl_dictSet_graph (m : String → String) :
    ∀ (ks : List String) (ts : List String), ts.Nodup → (∀ t ∈ ks, t ∈ ts) →
    ∀ f : String → String, (∀ t ∈ ts, t ∉ ks → f t = m t) →
    ((ks.map fun t => (t, m t)).foldl (fun d p => dictSet d p.1 p.2)
      (ts.map fun t => (t, f t))) = ts.map fun t => (t, m t) := by
  intro ks
  induction ks with
  | nil =>
    intro ts _ _ f hf
    simp only [List.map_nil, List.foldl_nil]
    apply List.map_eq_map_iff.mpr
    intro t ht
    rw [hf t ht (List.not_mem_nil t)]
  | cons k ks2 ih =>
    intro ts hnd hsub f hf
    simp only [List.map_cons, List.foldl_cons]
    rw [dictSet_map_update f k (m k) ts hnd (hsub k (List.mem_cons_self k ks2))]
    refine ih ts hnd (fun t ht => hsub t (List.mem_cons_of_mem _ ht)) _ ?_
    intro t ht htk
    by_cases hk : t = k
    · rw [if_pos hk, hk]
    · rw [if_neg hk]
      refine hf t ht ?_
      intro hm
      rcases List.mem_cons.1 hm with he | hm2
      · exact hk he
      · exact htk hm2

theorem getData_some (M : Manager) (name : String) (caps : Caps)
    (h : fullParseCaps (computeMatchingRegex M (true, true, false)).2 name.data = some caps) :
    getData M name = caps.foldl (fun d p => dictSet d p.1 (String.mk p.2))
      (M.tokens.map fun t => (t, "")) := by
  unfold getData
  rw [h]

theorem lenientRegex_eq (M : Manager) (c : Char) (hsep : M.separator.data = [c])
    (htok : M.tokens ≠ []) :
    (computeMatchingRegex M (true, true, false)).2 =
      lenientBody [c] ((M.tokens.map fun t => (t, rawPattern M t)).map
        fun nf => Rx.group nf.1 nf.2) := by
  rw [computeLenient M true true htok, hsep]
  congr 1
  rw [List.map_map]
  apply List.map_eq_map_iff.mpr
  intro t _
  rfl

theorem getData_eq (M : Manager) (c : Char) (tsA tsB : List String)
    (hsep : M.separator.data = [c]) (hsplit : M.tokens = tsA ++ tsB)
    (hnd : M.tokens.Nodup) (hA : tsA ≠ [])
    (m : String → String)
    (hmA : ∀ t ∈ tsA, (m t).data ≠ [] ∧ c ∉ (m t).data ∧
      ((m t).data.length, ([] : Caps)) ∈ runRx (rawPattern M t) (m t).data)
    (hmB : ∀ t ∈ tsB, m t = "")
    (hfrag : ∀ t ∈ M.tokens, FragOK c (rawPattern M t)) :
    getData M (String.mk (joinChars [c] (tsA.map fun t => (m t).data))) =
      M.tokens.map fun t => (t, m t) := by
  have htok : M.tokens ≠ [] := by
    rw [hsplit]
    cases tsA with
    | nil => exact absurd rfl hA
    | cons a l => simp
  have hmemA : ∀ t ∈ tsA, t ∈ M.tokens := by
    intro t ht
    rw [hsplit]
    exact List.mem_append_left tsB ht
  have hvsAne : (tsA.map fun t => (m t).data) ≠ [] := by
    intro h
    exact hA (List.map_eq_nil_iff.mp h)
  have hsd : (String.mk (joinChars [c] (tsA.map fun t => (m t).data))).data =
      joinChars [c] (tsA.map fun t => (m t).data) := rfl
  have hC : fullParseCaps (computeMatchingRegex M (true, true, false)).2
      (joinChars [c] (tsA.map fun t => (m t).data)) =
      some (tsA.map fun t => (t, (m t).data)) := by
    rw [lenientRegex_eq M c hsep htok]
    apply fullParseCaps_eq
    · have hcomp := lenientBody_complete c
        (tsA.map fun t => ((t, rawPattern M t), (m t).data))
        (tsB.map fun t => (t, rawPattern M t))
        (by
          intro h
          exact hA (List.map_eq_nil_iff.mp h))
        (by
          intro pr hpr
          obtain ⟨t, ht, hpre⟩ := List.mem_map.1 hpr
          rw [← hpre]
          exact ⟨(hfrag t (hmemA t ht)).1, (hmA t ht).2.2⟩)
      rw [List.map_map, List.map_map, List.map_map] at hcomp
      have he1 : ((tsA.map fun t => ((t, rawPattern M t), (m t).data)).map Prod.fst ++
          tsB.map fun t => (t, rawPattern M t)) =
          M.tokens.map fun t => (t, rawPattern M t) := by
        rw [hsplit, List.map_append, List.map_map]
        rfl
      rw [← List.map_map, ← List.map_map, ← List.map_map] at hcomp
      rw [he1] at hcomp
      have he2 : ((tsA.map fun t => ((t, rawPattern M t), (m t).data)).map Prod.snd) =
          tsA.map fun t => (m t).data := by
        rw [List.map_map]
        rfl
      have he3 : ((tsA.map fun t => ((t, rawPattern M t), (m t).data)).map
          fun pr => (pr.1.1, pr.2)) = tsA.map fun t => (t, (m t).data) := by
        rw [List.map_map]
        rfl
      rw [he2, he3] at hcomp
      exact hcomp
    · intro p hp hfull
      obtain ⟨vs, hvne, hvlen, hjoin, hvok, hcaps⟩ := lenientBody_sound c
        (M.tokens.map fun t => (t, rawPattern M t))
        (by
          intro h
          exact htok (List.map_eq_nil_iff.mp h))
        (by
          intro nf hnf
          obtain ⟨t, ht, hpre⟩ := List.mem_map.1 hnf
          rw [← hpre]
          exact ⟨(hfrag t ht).2.1, (hfrag t ht).2.2⟩)
        _ p hp hfull
      have hveq : vs = tsA.map fun t => (m t).data := by
        refine joinChars_inj c vs _ hvne hvsAne
          (fun v hv => (hvok v hv).2) ?_ hjoin.symm
        intro w hw
        obtain ⟨t, ht, hpre⟩ := List.mem_map.1 hw
        rw [← hpre]
        exact (hmA t ht).2.1
      rw [hcaps, hveq]
      rw [hsplit, List.map_append]
      rw [zip_append_left (tsA.map fun t => (t, rawPattern M t))
        (tsA.map fun t => (m t).data) (by simp) (tsB.map fun t => (t, rawPattern M t))]
      rw [List.zip_map', List.map_map]
      rfl
  rw [getData_some M _ _ (hsd ▸ hC)]
  rw [List.foldl_map (fun t => (t, (m t).data))
    (fun d p => dictSet d p.1 (String.mk p.2)) tsA (M.tokens.map fun t => (t, ""))]
  have hfold2 : tsA.foldl (fun d t => dictSet d t (String.mk (m t).data))
        (M.tokens.map fun t => (t, "")) =
      (tsA.map fun t => (t, m t)).foldl (fun d p => dictSet d p.1 p.2)
        (M.tokens.map fun t => (t, "")) := by
    rw [List.foldl_map (fun t => (t, m t)) (fun d p => dictSet d p.1 p.2) tsA]
  rw [hfold2]
  have hinit : (M.tokens.map fun t => (t, "")) =
      M.tokens.map fun t => (t, (fun _ => "") t) := rfl
  rw [hinit]
  refine foldl_dictSet_graph m tsA M.tokens hnd hmemA _ ?_
  intro t ht htA
  have htB : t ∈ tsB := by
    rw [hsplit] at ht
    rcases List.mem_append.1 ht with h1 | h2
    · exact absurd h1 htA
    · exact h2
  exact (hmB t htB).symm

/-! ### Claim C3 -/

theorem buildData_ok_inv (M : Manager) (kw : List (String × TokenValue)) :
    ∀ (ts : List String) (data : List (String × String)),
      buildData M kw ts = .ok data →
      data = (ts.map fun t => (t, normalizeTokenValue M t (kwLookup kw t))) ∧
      ∀ t ∈ ts, normalizeTokenValue M t (kwLookup kw t) ≠ "" →
        isValidToken M t (normalizeTokenValue M t (kwLookup kw t)) = .ok true := by
  intro ts
  induction ts with
  | nil =>
    intro data h
    simp only [buildData] at h
    cases h
    exact ⟨rfl, fun t ht => absurd ht (List.not_mem_nil t)⟩
  | cons t ts2 ih =>
    intro data h
    simp only [buildData] at h
    split at h
    · rename_i hne
      cases hvt : isValidToken M t (normalizeTokenValue M t (kwLookup kw t)) with
      | error e =>
        rw [hvt, except_bind_err] at h
        exact Except.noConfusion h
      | ok b =>
        rw [hvt, except_bind_ok] at h
        cases b with
        | false => exact Except.noConfusion h
        | true =>
          simp only [if_pos] at h
          cases hbd : buildData M kw ts2 with
          | error e =>
            rw [hbd, except_bind_err] at h
            exact Except.noConfusion h
          | ok rest =>
            rw [hbd, except_bind_ok] at h
            cases h
            obtain ⟨hrest, hvalid⟩ := ih rest hbd
            refine ⟨by rw [List.map_cons, hrest], ?_⟩
            intro u hu hune
            rcases List.mem_cons.1 hu with rfl | hu2
            · exact hvt
            · exact hvalid u hu2 hune
    · rename_i hne
      cases hbd : buildData M kw ts2 with
      | error e =>
        rw [hbd, except_bind_err] at h
        exact Except.noConfusion h
      | ok rest =>
        rw [hbd, except_bind_ok] at h
        cases h
        obtain ⟨hrest, hvalid⟩ := ih rest hbd
        refine ⟨by rw [List.map_cons, hrest], ?_⟩
        intro u hu hune
        rcases List.mem_cons.1 hu with rfl | hu2
        · exact absurd hune (by simpa using hne)
        · exact hvalid u hu2 hune

theorem buildName_ok_inv (M : Manager) (kw : List (String × TokenValue)) (s : String)
    (h : buildName M kw = .ok s) :
    s = joinTokens M (M.tokens.map fun t => (t, normalizeTokenValue M t (kwLookup kw t))) ∧
    ∀ t ∈ M.tokens, normalizeTokenValue M t (kwLookup kw t) ≠ "" →
      isValidToken M t (normalizeTokenValue M t (kwLookup kw t)) = .ok true := by
  have h2 : (if ((kw.map Prod.fst).filter fun k => !M.tokens.contains k) ≠ [] then
      (Except.error (Err.unknownTokens
        ((kw.map Prod.fst).filter fun k => !M.tokens.contains k) M.tokens) :
          Except Err String)
    else
      (buildData M kw M.tokens) >>= fun data =>
        (validateGlobalRules M (joinTokens M data)) >>= fun _ =>
          Except.ok (joinTokens M data)) = .ok s := h
  clear h
  split at h2
  · exact Except.noConfusion h2
  · cases hbd : buildData M kw M.tokens with
    | error e =>
      rw [hbd, except_bind_err] at h2
      exact Except.noConfusion h2
    | ok data =>
      rw [hbd, except_bind_ok] at h2
      obtain ⟨hdata, hvalid⟩ := buildData_ok_inv M kw M.tokens data hbd
      cases hvg : validateGlobalRules M (joinTokens M data) with
      | error e =>
        rw [hvg, except_bind_err] at h2
        exact Except.noConfusion h2
      | ok u =>
        rw [hvg, except_bind_ok] at h2
        cases h2
        exact ⟨by rw [hdata], hvalid⟩

theorem allValidTokens_map_ok (M : Manager) (f : String → String) :
    ∀ ts : List String,
      (∀ t ∈ ts, f t ≠ "" → isValidToken M t (f t) = .ok true) →
      allValidTokens M (ts.map fun t => (t, f t)) = .ok true := by
  intro ts
  induction ts with
  | nil => intro _; rfl
  | cons t ts2 ih =>
    intro h
    show allValidTokens M ((t, f t) :: ts2.map fun t => (t, f t)) = .ok true
    simp only [allValidTokens]
    split
    · exact ih (fun u hu => h u (List.mem_cons_of_mem t hu))
    · rename_i hne
      rw [h t (List.mem_cons_self t ts2) hne, except_bind_ok, if_pos rfl]
      exact ih (fun u hu => h u (List.mem_cons_of_mem t hu))

theorem filterMap_nonempty_vals (g : String → String) :
    ∀ ts : List String, (∀ t ∈ ts, g t ≠ "") →
      (ts.filterMap fun t => if g t ≠ "" then some (g t).data else none) =
        ts.map fun t => (g t).data := by
  intro ts
  induction ts with
  | nil => intro _; rfl
  | cons t ts2 ih =>
    intro h
    rw [List.filterMap_cons, if_pos (h t (List.mem_cons_self t ts2)), List.map_cons,
      ih (fun u hu => h u (List.mem_cons_of_mem t hu))]

/-- C3 (corrected): with a single-character separator, pairwise distinct
tokens, separator-safe rule fragments agreeing with their rules, and —
the missing proviso — every declared token receiving a non-empty
normalized value, a name returned by `build_name` satisfies `is_valid`.
When some token's value is empty the guarantee fails
(`claim3_counterexample`): the joined name omits that token's slot and
the strict pattern of `is_valid` rejects it. -/
theorem claim3_thm (M : Manager) (c : Char) (kw : List (String × TokenValue)) (s : String)
    (hsep : M.separator.data = [c])
    (hnd : M.tokens.Nodup) (htok : M.tokens ≠ [])
    (hOK : ∀ t ∈ M.tokens, TokenOK M c t)
    (hvals : ∀ t ∈ M.tokens, buildNormalized M kw t ≠ "")
    (hb : buildName M kw = .ok s) :
    isValid M s = true := by
  obtain ⟨hs, hvalid⟩ := buildName_ok_inv M kw s hb
  have hbn : ∀ t, normalizeTokenValue M t (kwLookup kw t) = buildNormalized M kw t :=
    fun t => rfl
  simp only [hbn] at hs hvalid
  have hvalid2 : ∀ t ∈ M.tokens, isValidToken M t (buildNormalized M kw t) = .ok true :=
    fun t ht => hvalid t ht (hvals t ht)
  have hcfree : ∀ t ∈ M.tokens, c ∉ (buildNormalized M kw t).data := by
    intro t ht hc
    have h1 := hvalid2 t ht
    unfold isValidToken at h1
    rw [hsep, if_pos ((isSubstring_singleton c _).2 hc)] at h1
    exact Bool.noConfusion (Except.ok.inj h1)
  have hdata_ne : ∀ t ∈ M.tokens, (buildNormalized M kw t).data ≠ [] :=
    fun t ht => (string_ne_empty_iff _).1 (hvals t ht)
  have hfragm : ∀ t ∈ M.tokens, ((buildNormalized M kw t).data.length, ([] : Caps)) ∈
      runRx (rawPattern M t) (buildNormalized M kw t).data := by
    intro t ht
    refine (hOK t ht).2.1 (buildNormalized M kw t).data
      (hdata_ne t ht) (hcfree t ht) ?_
    rw [string_mk_data]
    exact hvalid2 t ht
  have hsn : s = String.mk (joinChars [c]
      (M.tokens.map fun t => (buildNormalized M kw t).data)) := by
    rw [hs, joinTokens_map_pairs, hsep, filterMap_nonempty_vals _ M.tokens hvals]
  have hmapfalse : M.tokens.map (tokenPattern M false) = M.tokens.map (rawPattern M) := by
    apply List.map_eq_map_iff.mpr
    intro t _
    rfl
  have hstrict : reFullMatch (computeMatchingRegex M (false, true, true)).2 s.data = true := by
    rw [computeStrict M false true htok, hsep, hmapfalse, hsn]
    have hcomp := strictBody_complete c
      (M.tokens.map fun t => (rawPattern M t, (buildNormalized M kw t).data))
      (by
        intro h
        exact htok (List.map_eq_nil_iff.mp h))
      (by
        intro gp hgp
        obtain ⟨t, ht, hpre⟩ := List.mem_map.1 hgp
        rw [← hpre]
        exact ⟨((hOK t ht).1).1, hfragm t ht⟩)
    rw [List.map_map, List.map_map] at hcomp
    have he1 : (M.tokens.map (Prod.fst ∘ fun t =>
        (rawPattern M t, (buildNormalized M kw t).data))) = M.tokens.map (rawPattern M) := rfl
    have he2 : (M.tokens.map (Prod.snd ∘ fun t =>
        (rawPattern M t, (buildNormalized M kw t).data))) =
        M.tokens.map fun t => (buildNormalized M kw t).data := rfl
    rw [he1, he2] at hcomp
    refine (List.any_eq_true).2 ⟨_, hcomp, ?_⟩
    simp
  have hgd : getData M s = M.tokens.map fun t => (t, buildNormalized M kw t) := by
    rw [hsn]
    exact getData_eq M c M.tokens [] hsep (List.append_nil M.tokens).symm hnd htok
      (fun t => buildNormalized M kw t)
      (fun t ht => ⟨hdata_ne t ht, hcfree t ht, hfragm t ht⟩)
      (fun t ht => absurd ht (List.not_mem_nil t))
      (fun t ht => (hOK t ht).1)
  have hsne : s ≠ "" := by
    rw [string_ne_empty_iff, hsn]
    show joinChars [c] (M.tokens.map fun t => (buildNormalized M kw t).data) ≠ []
    refine joinChars_ne_nil c _ (by
      intro h
      exact htok (List.map_eq_nil_iff.mp h)) ?_
    intro v hv
    obtain ⟨t, ht, hpre⟩ := List.mem_map.1 hv
    rw [← hpre]
    exact hdata_ne t ht
  unfold isValid
  rw [if_neg hsne, hstrict]
  simp only [Bool.not_true, Bool.false_eq_true, if_false]
  rw [hgd, allValidTokens_map_ok M (buildNormalized M kw) M.tokens
    (fun t ht _ => hvalid2 t ht)]

/-- C3, counterexample to the unqualified claim: on the two-token
manager, `build_name` with only the first token supplied returns `"x"`
without error, yet `is_valid "x"` is `false` — the strict pattern
demands both token slots. -/
theorem claim3_counterexample :
    buildName twoTok [("a", .s "x")] = .ok "x" ∧ isValid twoTok "x" = false := by
  refine ⟨by decide, by decide⟩

theorem claim3_witness : isValid twoTok "x_y" = true :=
  claim3_thm twoTok '_' [("a", .s "x"), ("b", .s "y")] "x_y" rfl (by decide) (by decide)
    (fun t ht => tokenOK_noRule twoTok '_' t rfl (by decide) rfl)
    (by decide)
    (by decide)

/-! ### Claim C1 -/

theorem prefixAssign_split (g : String → String) :
    ∀ ts : List String, prefixAssign (ts.map g) = true →
      ∃ tsA tsB, ts = tsA ++ tsB ∧ (∀ t ∈ tsA, g t ≠ "") ∧ (∀ t ∈ tsB, g t = "") := by
  intro ts
  induction ts with
  | nil => intro _; exact ⟨[], [], rfl, by simp, by simp⟩
  | cons t ts2 ih =>
    intro h
    by_cases hg : g t = ""
    · refine ⟨[], t :: ts2, rfl, by simp, ?_⟩
      unfold prefixAssign at h
      rw [List.map_cons, List.dropWhile_cons, if_neg (by simp [hg])] at h
      intro u hu
      rcases List.mem_cons.1 hu with rfl | hu2
      · exact hg
      · have := List.all_eq_true.1 h (g u)
          (List.mem_cons_of_mem _ (List.mem_map_of_mem g hu2))
        simpa using this
    · have h2 : prefixAssign (ts2.map g) = true := by
        unfold prefixAssign at h ⊢
        rw [List.map_cons, List.dropWhile_cons, if_pos (by simp [hg])] at h
        exact h
      obtain ⟨tsA, tsB, hsp, hA, hB⟩ := ih h2
      refine ⟨t :: tsA, tsB, by rw [List.cons_append, ← hsp], ?_, hB⟩
      intro u hu
      rcases List.mem_cons.1 hu with rfl | hu2
      · exact hg
      · exact hA u hu2

theorem filterMap_empty_vals (g : String → String) :
    ∀ ts : List String, (∀ t ∈ ts, g t = "") →
      (ts.filterMap fun t => if g t ≠ "" then some (g t).data else none) = [] := by
  intro ts
  induction ts with
  | nil => intro _; rfl
  | cons t ts2 ih =>
    intro h
    rw [List.filterMap_cons, if_neg (by simp [h t (List.mem_cons_self t ts2)]),
      ih (fun u hu => h u (List.mem_cons_of_mem t hu))]

theorem lenient_no_parse_nil (c : Char) (nfs : List (String × Rx)) (hne : nfs ≠ [])
    (hOK : ∀ nf ∈ nfs, groupFree nf.2 = true ∧
      ∀ (s : List Char) (p : Nat × Caps), p ∈ runRx nf.2 s → 0 < p.1 ∧ c ∉ s.take p.1) :
    runRx (lenientBody [c] (nfs.map fun nf => Rx.group nf.1 nf.2)) [] = [] := by
  rw [List.eq_nil_iff_forall_not_mem]
  intro p hp
  have hle := runRx_consumed_le _ _ p hp
  obtain ⟨vs, hvne, _, hjoin, hvok, _⟩ := lenientBody_sound c nfs hne hOK [] p hp
    (by simpa using hle)
  exact joinChars_ne_nil c vs hvne (fun v hv => (hvok v hv).1) hjoin.symm

theorem getData_none (M : Manager) (name : String)
    (h : fullParseCaps (computeMatchingRegex M (true, true, false)).2 name.data = none) :
    getData M name = M.tokens.map fun t => (t, "") := by
  unfold getData
  rw [h]

theorem fullParseCaps_of_no_parse (r : Rx) (s : List Char) (h : runRx r s = []) :
    fullParseCaps r s = none := by
  unfold fullParseCaps
  rw [h]
  rfl

/-- C1 (corrected): with a single-character separator, pairwise distinct
tokens, separator-safe fragments agreeing with their rules, values
already in normalized form, and — the missing proviso — the non-empty
values assigned to a contiguous prefix of the declared token order,
`get_data` of a successfully built name maps every token back to its
supplied value (the empty string for every unsupplied token).  When a
later token is filled while an earlier one is empty the round-trip
fails (`claim1_counterexample`): the lenient pattern reassigns the
value to the earliest token slot. -/
theorem claim1_thm (M : Manager) (c : Char) (kw : List (String × TokenValue)) (s : String)
    (hsep : M.separator.data = [c]) (hnd : M.tokens.Nodup) (htok : M.tokens ≠ [])
    (hOK : ∀ t ∈ M.tokens, TokenOK M c t)
    (hnorm : ∀ t ∈ M.tokens, buildNormalized M kw t = unwrapTV (kwLookup kw t))
    (hpre : prefixAssign (M.tokens.map fun t => buildNormalized M kw t) = true)
    (hb : buildName M kw = .ok s) :
    getData M s = M.tokens.map fun t => (t, unwrapTV (kwLookup kw t)) := by
  obtain ⟨hs, hvalid⟩ := buildName_ok_inv M kw s hb
  have hbn : ∀ t, normalizeTokenValue M t (kwLookup kw t) = buildNormalized M kw t :=
    fun t => rfl
  simp only [hbn] at hs hvalid
  obtain ⟨tsA, tsB, hsplit, hA, hB⟩ := prefixAssign_split (buildNormalized M kw) M.tokens hpre
  have hmemA : ∀ t ∈ tsA, t ∈ M.tokens := by
    intro t ht
    rw [hsplit]
    exact List.mem_append_left _ ht
  have hvalid2 : ∀ t ∈ tsA, isValidToken M t (buildNormalized M kw t) = .ok true :=
    fun t ht => hvalid t (hmemA t ht) (hA t ht)
  have hcfree : ∀ t ∈ tsA, c ∉ (buildNormalized M kw t).data := by
    intro t ht hc
    have h1 := hvalid2 t ht
    unfold isValidToken at h1
    rw [hsep, if_pos ((isSubstring_singleton c _).2 hc)] at h1
    exact Bool.noConfusion (Except.ok.inj h1)
  have hdata_ne : ∀ t ∈ tsA, (buildNormalized M kw t).data ≠ [] :=
    fun t ht => (string_ne_empty_iff _).1 (hA t ht)
  have hfragm : ∀ t ∈ tsA, ((buildNormalized M kw t).data.length, ([] : Caps)) ∈
      runRx (rawPattern M t) (buildNormalized M kw t).data := by
    intro t ht
    refine (hOK t (hmemA t ht)).2.1 (buildNormalized M kw t).data
      (hdata_ne t ht) (hcfree t ht) ?_
    rw [string_mk_data]
    exact hvalid2 t ht
  have hsn : s = String.mk (joinChars [c]
      (tsA.map fun t => (buildNormalized M kw t).data)) := by
    rw [hs, joinTokens_map_pairs, hsep, hsplit, List.filterMap_append,
      filterMap_nonempty_vals _ tsA hA, filterMap_empty_vals _ tsB hB, List.append_nil]
  have hconc : (M.tokens.map fun t => (t, unwrapTV (kwLookup kw t))) =
      M.tokens.map fun t => (t, buildNormalized M kw t) :=
    (List.map_eq_map_iff.mpr (fun t ht => by rw [hnorm t ht])).symm
  rw [hconc]
  by_cases hAne : tsA = []
  · rw [hAne] at hsn
    have hsempty : s = "" := by rw [hsn]; rfl
    rw [hsempty]
    have hdat : ("" : String).data = ([] : List Char) := rfl
    have h1 : fullParseCaps (computeMatchingRegex M (true, true, false)).2
        (String.data "") = none := by
      rw [lenientRegex_eq M c hsep htok, hdat]
      apply fullParseCaps_of_no_parse
      apply lenient_no_parse_nil c _ (by
        intro h
        exact htok (List.map_eq_nil_iff.mp h))
      intro nf hnf
      obtain ⟨t, ht, hpre2⟩ := List.mem_map.1 hnf
      rw [← hpre2]
      exact ⟨((hOK t ht).1).2.1, ((hOK t ht).1).2.2⟩
    rw [getData_none M "" h1]
    apply List.map_eq_map_iff.mpr
    intro t ht
    have htB : t ∈ tsB := by
      rw [hAne] at hsplit
      rw [hsplit] at ht
      simpa using ht
    rw [hB t htB]
  · rw [hsn]
    exact getData_eq M c tsA tsB hsep hsplit hnd hAne (buildNormalized M kw)
      (fun t ht => ⟨hdata_ne t ht, hcfree t ht, hfragm t ht⟩) hB
      (fun t ht => (hOK t ht).1)

/-- C1, counterexample to the unqualified claim: on the two-token
manager, supplying only the second token (`b = "y"`, a normalized valid
separator-free value) builds the name `"y"`, but `get_data` assigns
`"y"` to the first token `a` and the empty string to `b`, not the
original mapping. -/
theorem claim1_counterexample :
    buildName twoTok [("b", TokenValue.s "y")] = .ok "y" ∧
    getData twoTok "y" = [("a", "y"), ("b", "")] := by
  refine ⟨by decide, by decide⟩

theorem claim1_witness :
    getData twoTok "x_y" =
      twoTok.tokens.map fun t =>
        (t, unwrapTV (kwLookup [("a", TokenValue.s "x"), ("b", TokenValue.s "y")] t)) :=
  claim1_thm twoTok '_' [("a", TokenValue.s "x"), ("b", TokenValue.s "y")] "x_y" rfl
    (by decide) (by decide)
    (fun t ht => tokenOK_noRule twoTok '_' t rfl (by decide) rfl)
    (by decide) (by decide) (by decide)

end OpenRig
